import Mathlib

/-!
# Verification of the qroute routing core

Shallow embedding of the routing state machine (`qroute/environment/state.py`),
the caller-side lock assertion (`qroute/engine.py`) and the simulated-annealing
search (`qroute/algorithms/simanneal.py`), together with proofs of the spec's
claims about them.

Conventions of the embedding:
* numpy integer arrays become `List ℤ` (or `List ℕ` where the source only ever
  stores nonnegative indices), numpy boolean arrays become `List Bool`;
* Python's simultaneous assignment swap becomes `list_swap`;
* Python exceptions (`RuntimeError`) become `Except String`;
* the global numpy random source and the float-valued acceptance test
  `acceptance_probability(...) > np.random.random()` are passed in explicitly
  (`choose` picks an element of a list of eligible edge indices, `accept`
  decides the randomized Metropolis test), as the spec's design notes require.
-/

namespace QRoute

/-- Device topology (`qroute/environment/device.py`, external per spec §3):
node count, ordered edge list, all-pairs shortest-path distance matrix. -/
structure Device where
  n : ℕ
  edges : List (ℕ × ℕ)
  distances : ℕ → ℕ → ℕ

/-- The routing state `CircuitStateDQN` (`qroute/environment/state.py`).
`circuit` is the per-qubit ordered list of interaction targets
(`CircuitRepDQN`, external per spec §3); `circuit` and `device` are the shared
read-only references, the four arrays are the mutable state. -/
structure CircuitStateDQN where
  circuit : List (List ℕ)
  device : Device
  node_to_qubit : List ℕ
  qubit_targets : List ℤ
  circuit_progress : List ℕ
  locked_edges : List ℤ

/-- Python's simultaneous swap
`a[n1], a[n2] = a[n2], a[n1]` on a list. -/
def list_swap (l : List ℕ) (i j : ℕ) : List ℕ :=
  (l.set i (l.getD j 0)).set j (l.getD i 0)

/-- `CircuitStateDQN.execute_swap` (state.py lines 40-54): for each selected
edge exchange the qubits at its endpoints, returning the new state and the
list of edges actually swapped.  The source performs no validation of locks
or disjointness here. -/
def execute_swap (solution : List Bool) (s : CircuitStateDQN) :
    CircuitStateDQN × List (ℕ × ℕ) :=
  let step := fun (acc : List ℕ × List (ℕ × ℕ)) (es : (ℕ × ℕ) × Bool) =>
    if es.2 then (list_swap acc.1 es.1.1 es.1.2, acc.2 ++ [es.1]) else acc
  let r := (s.device.edges.zip solution).foldl step (s.node_to_qubit, [])
  ({ s with node_to_qubit := r.1 }, r.2)

/-! ## Permutation preservation of `list_swap` -/

theorem count_set_add (l : List ℕ) (i : ℕ) (b x : ℕ) (hi : i < l.length) :
    (l.set i b).count x + (if l[i] = x then 1 else 0)
      = l.count x + (if b = x then 1 else 0) := by
  have hdecomp : l = l.take i ++ l[i] :: l.drop (i + 1) := by
    conv_lhs => rw [← List.take_append_drop i l]
    rw [List.drop_eq_getElem_cons hi]
  rw [List.set_eq_take_cons_drop b hi]
  conv_rhs => rw [hdecomp]
  simp only [List.count_append, List.count_cons]
  by_cases h1 : l[i] = x <;> by_cases h2 : b = x <;>
    simp [h1, h2, beq_iff_eq] <;> omega

theorem list_swap_perm (l : List ℕ) (i j : ℕ)
    (hi : i < l.length) (hj : j < l.length) :
    (list_swap l i j).Perm l := by
  rw [List.perm_iff_count]
  intro x
  have hgd_i : l.getD i 0 = l[i] := List.getD_eq_getElem l 0 hi
  have hgd_j : l.getD j 0 = l[j] := List.getD_eq_getElem l 0 hj
  unfold list_swap
  rw [hgd_i, hgd_j]
  have hj' : j < (l.set i l[j]).length := by simpa using hj
  have h1 := count_set_add (l.set i l[j]) j l[i] x hj'
  have h2 := count_set_add l i l[j] x hi
  have hgetj : (l.set i l[j])[j] = l[j] := by
    rw [List.getElem_set]
    split <;> rfl
  rw [hgetj] at h1
  split_ifs at h1 h2 <;> omega

theorem list_swap_length (l : List ℕ) (i j : ℕ) :
    (list_swap l i j).length = l.length := by
  simp [list_swap]

/-- The selected edges of a solution are pairwise vertex-disjoint:
no node is an endpoint of two distinct selected edges. -/
def pairwise_disjoint_selected (edges : List (ℕ × ℕ)) (solution : List Bool) : Bool :=
  (List.range edges.length).all fun i =>
    (List.range edges.length).all fun j =>
      i == j || !(solution.getD i false) || !(solution.getD j false) ||
        ((edges.getD i (0, 0)).1 != (edges.getD j (0, 0)).1 &&
         (edges.getD i (0, 0)).1 != (edges.getD j (0, 0)).2 &&
         (edges.getD i (0, 0)).2 != (edges.getD j (0, 0)).1 &&
         (edges.getD i (0, 0)).2 != (edges.getD j (0, 0)).2)

theorem execute_swap_foldl_perm (edges : List ((ℕ × ℕ) × Bool)) (l : List ℕ)
    (acc : List (ℕ × ℕ))
    (hend : ∀ e ∈ edges, e.1.1 < l.length ∧ e.1.2 < l.length) :
    ((edges.foldl
        (fun (acc : List ℕ × List (ℕ × ℕ)) (es : (ℕ × ℕ) × Bool) =>
          if es.2 then (list_swap acc.1 es.1.1 es.1.2, acc.2 ++ [es.1]) else acc)
        (l, acc)).1).Perm l := by
  induction edges generalizing l acc with
  | nil => simp
  | cons e rest ih =>
    simp only [List.foldl_cons]
    by_cases he : e.2
    · simp only [he, if_pos]
      have h1 := hend e (List.mem_cons_self e rest)
      have hperm : (list_swap l e.1.1 e.1.2).Perm l :=
        list_swap_perm l e.1.1 e.1.2 h1.1 h1.2
      have hlen : (list_swap l e.1.1 e.1.2).length = l.length :=
        list_swap_length l e.1.1 e.1.2
      have := ih (list_swap l e.1.1 e.1.2) (acc ++ [e.1])
        (fun x hx => by rw [hlen]; exact hend x (List.mem_cons_of_mem e hx))
      exact this.trans hperm
    · simp only [he, if_neg, Bool.false_eq_true, not_false_iff]
      exact ih l acc (fun x hx => hend x (List.mem_cons_of_mem e hx))

/-- C1: `execute_swap` preserves the node-to-qubit permutation.  For every
routing state whose `node_to_qubit` is a permutation of `{0..N-1}` and every
swap solution whose selected edges are vertex-disjoint (with endpoints that
are valid node indices), after `execute_swap` the `node_to_qubit` array is
still a permutation of `{0..N-1}`. -/
theorem execute_swap_preserves_permutation (s : CircuitStateDQN)
    (solution : List Bool)
    (hperm : s.node_to_qubit.Perm (List.range s.device.n))
    (hend : ∀ e ∈ s.device.edges, e.1 < s.device.n ∧ e.2 < s.device.n)
    (hdisj : pairwise_disjoint_selected s.device.edges solution = true) :
    ((execute_swap solution s).1).node_to_qubit.Perm (List.range s.device.n) := by
  have hlen : s.node_to_qubit.length = s.device.n := by
    simpa using hperm.length_eq
  have hend' : ∀ e ∈ s.device.edges.zip solution,
      e.1.1 < s.node_to_qubit.length ∧ e.1.2 < s.node_to_qubit.length := by
    intro e he
    have := hend e.1 (List.of_mem_zip he).1
    omega
  have := execute_swap_foldl_perm (s.device.edges.zip solution)
    s.node_to_qubit [] hend'
  exact this.trans hperm

/-- Witness for C1 at a concrete state: a 3-node path device, identity
mapping, swapping the single selected edge (0,1). -/
theorem execute_swap_preserves_permutation_witness :
    (([1, 0, 2] : List ℕ).Perm (List.range 3)) ∧
    ((execute_swap [true, false]
      { circuit := [[1], [0], []],
        device := { n := 3, edges := [(0, 1), (1, 2)], distances := fun i j => 0 },
        node_to_qubit := [0, 1, 2], qubit_targets := [1, 0, -1],
        circuit_progress := [0, 0, 0], locked_edges := [0, 0] }).1).node_to_qubit.Perm
      (List.range 3) := by
  refine ⟨by decide, ?_⟩
  exact execute_swap_preserves_permutation _ _ (by decide) (by decide) (by decide)

/-! ## `execute_cnot` (apply-ready-interactions) -/

/-- Helper `getD`/`set` lemmas used throughout. -/
theorem getD_set_self {α : Type} (l : List α) (i : ℕ) (a d : α) (h : i < l.length) :
    (l.set i a).getD i d = a := by
  rw [List.getD_eq_getElem _ d (by simpa using h)]
  simp

theorem getD_set_ne {α : Type} (l : List α) (i j : ℕ) (a d : α) (hij : i ≠ j) :
    (l.set i a).getD j d = l.getD j d := by
  by_cases hj : j < l.length
  · rw [List.getD_eq_getElem _ d (by simpa using hj), List.getD_eq_getElem _ d hj]
    exact List.getElem_set_ne hij _
  · rw [List.getD_eq_default _ d (by simp; omega), List.getD_eq_default _ d (by omega)]

/-- `self._circuit_progress[q] += 1` (state.py line 70/71). -/
def incr_progress (cp : List ℕ) (q : ℕ) : List ℕ :=
  cp.set q (cp.getD q 0 + 1)

/-- The firing condition of `execute_cnot` on an edge `(n1, n2)` (state.py
line 66, negated `continue` guard): the qubits at the two endpoints mutually
name each other as next targets. -/
def cnot_fires (ntq : List ℕ) (qt : List ℤ) (e : ℕ × ℕ) : Bool :=
  qt.getD (ntq.getD e.1 0) 0 == (ntq.getD e.2 0 : ℤ) &&
  qt.getD (ntq.getD e.2 0) 0 == (ntq.getD e.1 0 : ℤ)

/-- The edge scan of `execute_cnot` (state.py lines 62-71): walk the device
edges, incrementing both qubits' progress on each fired edge and collecting
the fired node pairs. -/
def cnot_scan (ntq : List ℕ) (qt : List ℤ) (edges : List (ℕ × ℕ))
    (cp : List ℕ) (acc : List (ℕ × ℕ)) : List ℕ × List (ℕ × ℕ) :=
  edges.foldl
    (fun r e =>
      if cnot_fires ntq qt e then
        (incr_progress (incr_progress r.1 (ntq.getD e.1 0)) (ntq.getD e.2 0),
         r.2 ++ [e])
      else r)
    (cp, acc)

/-- The recomputed target of qubit `q` (state.py lines 74-75):
`circuit[q][progress[q]]` if progress has not reached the end, else `-1`. -/
def next_target (circuit : List (List ℕ)) (cp : List ℕ) (q : ℕ) : ℤ :=
  if cp.getD q 0 < (circuit.getD q []).length
  then ((circuit.getD q []).getD (cp.getD q 0) 0 : ℤ)
  else -1

/-- The target-recompute loop of `execute_cnot` (state.py lines 73-75). -/
def recompute_targets (circuit : List (List ℕ)) (n : ℕ) (cp : List ℕ)
    (qt : List ℤ) : List ℤ :=
  (List.range n).foldl (fun tq q => tq.set q (next_target circuit cp q)) qt

/-- `CircuitStateDQN.execute_cnot` (state.py lines 56-76). -/
def execute_cnot (s : CircuitStateDQN) : CircuitStateDQN × List (ℕ × ℕ) :=
  let scan := cnot_scan s.node_to_qubit s.qubit_targets s.device.edges
    s.circuit_progress []
  ({ s with
      circuit_progress := scan.1,
      qubit_targets := recompute_targets s.circuit s.device.n scan.1
        s.qubit_targets },
   scan.2)

theorem cnot_scan_snd (ntq : List ℕ) (qt : List ℤ) (edges : List (ℕ × ℕ))
    (cp : List ℕ) (acc : List (ℕ × ℕ)) :
    (cnot_scan ntq qt edges cp acc).2
      = acc ++ edges.filter (cnot_fires ntq qt) := by
  induction edges generalizing cp acc with
  | nil => simp [cnot_scan]
  | cons e rest ih =>
    by_cases he : cnot_fires ntq qt e
    · simp only [cnot_scan, List.foldl_cons, he, if_pos, List.filter_cons_of_pos]
      simp only [cnot_scan] at ih
      rw [ih]
      simp
    · simp only [cnot_scan, List.foldl_cons, he, Bool.false_eq_true, if_neg,
        not_false_iff, List.filter_cons_of_neg]
      exact ih cp acc

theorem incr_progress_length (cp : List ℕ) (q : ℕ) :
    (incr_progress cp q).length = cp.length := by
  simp [incr_progress]

theorem incr_progress_getD_self (cp : List ℕ) (q : ℕ) (h : q < cp.length) :
    (incr_progress cp q).getD q 0 = cp.getD q 0 + 1 :=
  getD_set_self cp q _ 0 h

theorem incr_progress_getD_ne (cp : List ℕ) (q q' : ℕ) (h : q' ≠ q) :
    (incr_progress cp q').getD q 0 = cp.getD q 0 :=
  getD_set_ne cp q' q _ 0 h

theorem cnot_scan_fst_length (ntq : List ℕ) (qt : List ℤ)
    (edges : List (ℕ × ℕ)) (cp : List ℕ) (acc : List (ℕ × ℕ)) :
    (cnot_scan ntq qt edges cp acc).1.length = cp.length := by
  induction edges generalizing cp acc with
  | nil => simp [cnot_scan]
  | cons e rest ih =>
    by_cases he : cnot_fires ntq qt e
    · simp only [cnot_scan, List.foldl_cons, he, if_pos]
      simp only [cnot_scan] at ih
      rw [ih]
      simp [incr_progress_length]
    · simp only [cnot_scan, List.foldl_cons, he, Bool.false_eq_true, if_neg,
        not_false_iff]
      exact ih cp acc

/-- The multiset of qubits touched by the fired edges, in scan order. -/
def qubit_uses (ntq : List ℕ) (l : List (ℕ × ℕ)) : List ℕ :=
  l.foldr (fun e acc => ntq.getD e.1 0 :: ntq.getD e.2 0 :: acc) []

theorem cnot_scan_fst_getD (ntq : List ℕ) (qt : List ℤ)
    (edges : List (ℕ × ℕ)) (cp : List ℕ) (acc : List (ℕ × ℕ)) (q : ℕ) :
    q < cp.length →
    (∀ e ∈ edges, ntq.getD e.1 0 < cp.length ∧ ntq.getD e.2 0 < cp.length) →
    (cnot_scan ntq qt edges cp acc).1.getD q 0
      = cp.getD q 0
        + (qubit_uses ntq (edges.filter (cnot_fires ntq qt))).count q := by
  induction edges generalizing cp acc with
  | nil => intro _ _; simp [cnot_scan, qubit_uses]
  | cons e rest ih =>
    intro hq hend
    by_cases he : cnot_fires ntq qt e
    · simp only [cnot_scan, List.foldl_cons, he, if_pos, List.filter_cons_of_pos]
      simp only [cnot_scan] at ih
      have hlen2 : (incr_progress (incr_progress cp (ntq.getD e.1 0))
          (ntq.getD e.2 0)).length = cp.length := by
        simp [incr_progress_length]
      rw [ih _ _ (by rw [hlen2]; omega)
        (fun x hx => by rw [hlen2]; exact hend x (List.mem_cons_of_mem e hx))]
      have husa : qubit_uses ntq (e :: List.filter (cnot_fires ntq qt) rest)
          = ntq.getD e.1 0 :: ntq.getD e.2 0
            :: qubit_uses ntq (List.filter (cnot_fires ntq qt) rest) := rfl
      rw [husa]
      by_cases hq1 : q = ntq.getD e.1 0 <;> by_cases hq2 : q = ntq.getD e.2 0
      · rw [← hq1, ← hq2,
          incr_progress_getD_self _ _ (by rw [incr_progress_length]; omega),
          incr_progress_getD_self _ _ (by omega),
          List.count_cons_self, List.count_cons_self]
        omega
      · rw [← hq1,
          incr_progress_getD_ne _ _ _ (by omega),
          incr_progress_getD_self _ _ (by omega),
          List.count_cons_self, List.count_cons_of_ne hq2]
        omega
      · rw [← hq2,
          incr_progress_getD_self _ _ (by rw [incr_progress_length]; omega),
          incr_progress_getD_ne _ _ _ (by omega),
          List.count_cons_of_ne hq1, List.count_cons_self]
        omega
      · rw [incr_progress_getD_ne _ _ _ (by omega),
          incr_progress_getD_ne _ _ _ (by omega),
          List.count_cons_of_ne hq1, List.count_cons_of_ne hq2]
    · simp only [cnot_scan, List.foldl_cons, he, Bool.false_eq_true, if_neg,
        not_false_iff, List.filter_cons_of_neg]
      exact ih cp acc hq (fun x hx => hend x (List.mem_cons_of_mem e hx))

theorem count_uses_zero (ntq : List ℕ) (l : List (ℕ × ℕ)) (q : ℕ) :
    (∀ e ∈ l, ntq.getD e.1 0 ≠ q ∧ ntq.getD e.2 0 ≠ q) →
    (qubit_uses ntq l).count q = 0 := by
  induction l with
  | nil => intro _; rfl
  | cons a rest ih =>
    intro h
    have ha := h a (List.mem_cons_self a rest)
    have hcons : qubit_uses ntq (a :: rest)
        = ntq.getD a.1 0 :: ntq.getD a.2 0 :: qubit_uses ntq rest := rfl
    rw [hcons, List.count_cons_of_ne (Ne.symm ha.1),
      List.count_cons_of_ne (Ne.symm ha.2)]
    exact ih (fun e he => h e (List.mem_cons_of_mem a he))

theorem count_uses_one (ntq : List ℕ) (l : List (ℕ × ℕ)) (q : ℕ) (e : ℕ × ℕ)
    (hone : (ntq.getD e.1 0 = q ∧ ntq.getD e.2 0 ≠ q) ∨
            (ntq.getD e.1 0 ≠ q ∧ ntq.getD e.2 0 = q)) :
    e ∈ l → l.Nodup →
    (∀ e' ∈ l, e' ≠ e → ntq.getD e'.1 0 ≠ q ∧ ntq.getD e'.2 0 ≠ q) →
    (qubit_uses ntq l).count q = 1 := by
  induction l with
  | nil => intro hmem; cases hmem
  | cons a rest ih =>
    intro hmem hnd hothers
    have hcons : qubit_uses ntq (a :: rest)
        = ntq.getD a.1 0 :: ntq.getD a.2 0 :: qubit_uses ntq rest := rfl
    rw [hcons]
    rcases List.mem_cons.mp hmem with rfl | hmem'
    · have hrest0 : (qubit_uses ntq rest).count q = 0 := by
        apply count_uses_zero
        intro e' he'
        exact hothers e' (List.mem_cons_of_mem _ he')
          (by rintro rfl; exact (List.nodup_cons.mp hnd).1 he')
      rcases hone with ⟨h1, h2⟩ | ⟨h1, h2⟩
      · rw [h1, List.count_cons_self, List.count_cons_of_ne (Ne.symm h2), hrest0]
      · rw [h2, List.count_cons_of_ne (Ne.symm h1), List.count_cons_self, hrest0]
    · have hane : a ≠ e := by
        rintro rfl; exact (List.nodup_cons.mp hnd).1 hmem'
      have ha := hothers a (List.mem_cons_self a rest) hane
      rw [List.count_cons_of_ne (Ne.symm ha.1), List.count_cons_of_ne (Ne.symm ha.2)]
      exact ih hmem' (List.nodup_cons.mp hnd).2
        (fun e' he' hne => hothers e' (List.mem_cons_of_mem a he') hne)

theorem nodup_getD_inj (l : List ℕ) (hnd : l.Nodup) (a b : ℕ)
    (ha : a < l.length) (hb : b < l.length)
    (h : l.getD a 0 = l.getD b 0) : a = b := by
  rw [List.getD_eq_getElem _ _ ha, List.getD_eq_getElem _ _ hb] at h
  exact (List.Nodup.getElem_inj_iff hnd).mp h

/-- Each fired interaction touches each of its two qubits exactly once across
the whole edge scan: the device hypotheses (valid distinct endpoints, no
duplicate edges in either orientation) and the injectivity of `node_to_qubit`
rule out a second fired edge involving the same qubit. -/
theorem fired_count_one (ntq : List ℕ) (qt : List ℤ) (edges : List (ℕ × ℕ))
    (n : ℕ) (hlen : ntq.length = n) (hnd : ntq.Nodup)
    (hmem : ∀ a ∈ ntq, a < n)
    (hedges : ∀ e ∈ edges, e.1 < n ∧ e.2 < n ∧ e.1 ≠ e.2)
    (hndE : edges.Nodup)
    (hnorev : ∀ e ∈ edges, ∀ e' ∈ edges, ¬(e.1 = e'.2 ∧ e.2 = e'.1))
    (e : ℕ × ℕ) (he : e ∈ edges) (hf : cnot_fires ntq qt e = true) :
    (qubit_uses ntq (edges.filter (cnot_fires ntq qt))).count (ntq.getD e.1 0) = 1 ∧
    (qubit_uses ntq (edges.filter (cnot_fires ntq qt))).count (ntq.getD e.2 0) = 1 := by
  have hinj : ∀ a b, a < n → b < n → ntq.getD a 0 = ntq.getD b 0 → a = b :=
    fun a b ha hb h => nodup_getD_inj ntq hnd a b (by omega) (by omega) h
  have hfe : qt.getD (ntq.getD e.1 0) 0 = (ntq.getD e.2 0 : ℤ) ∧
      qt.getD (ntq.getD e.2 0) 0 = (ntq.getD e.1 0 : ℤ) := by
    simpa [cnot_fires, Bool.and_eq_true, beq_iff_eq] using hf
  have hee := hedges e he
  have key : ∀ e' ∈ edges.filter (cnot_fires ntq qt), e' ≠ e →
      (ntq.getD e'.1 0 ≠ ntq.getD e.1 0 ∧ ntq.getD e'.2 0 ≠ ntq.getD e.1 0) ∧
      (ntq.getD e'.1 0 ≠ ntq.getD e.2 0 ∧ ntq.getD e'.2 0 ≠ ntq.getD e.2 0) := by
    intro e' he'f hne
    have he'E : e' ∈ edges := (List.mem_filter.mp he'f).1
    have hf' : cnot_fires ntq qt e' = true := (List.mem_filter.mp he'f).2
    have hfe' : qt.getD (ntq.getD e'.1 0) 0 = (ntq.getD e'.2 0 : ℤ) ∧
        qt.getD (ntq.getD e'.2 0) 0 = (ntq.getD e'.1 0 : ℤ) := by
      simpa [cnot_fires, Bool.and_eq_true, beq_iff_eq] using hf'
    have hee' := hedges e' he'E
    refine ⟨⟨?_, ?_⟩, ⟨?_, ?_⟩⟩
    · intro hcon
      have h11 : e'.1 = e.1 := hinj _ _ hee'.1 hee.1 hcon
      have : (ntq.getD e'.2 0 : ℤ) = (ntq.getD e.2 0 : ℤ) := by
        rw [← hfe'.1, ← hfe.1, hcon]
      have h22 : e'.2 = e.2 := hinj _ _ hee'.2.1 hee.2.1 (by omega)
      exact hne (Prod.ext h11 h22)
    · intro hcon
      have h21 : e'.2 = e.1 := hinj _ _ hee'.2.1 hee.1 hcon
      have : (ntq.getD e'.1 0 : ℤ) = (ntq.getD e.2 0 : ℤ) := by
        rw [← hfe'.2, ← hfe.1, hcon]
      have h12 : e'.1 = e.2 := hinj _ _ hee'.1 hee.2.1 (by omega)
      exact hnorev e' he'E e he ⟨h12, h21⟩
    · intro hcon
      have h12 : e'.1 = e.2 := hinj _ _ hee'.1 hee.2.1 hcon
      have : (ntq.getD e'.2 0 : ℤ) = (ntq.getD e.1 0 : ℤ) := by
        rw [← hfe'.1, ← hfe.2, hcon]
      have h21 : e'.2 = e.1 := hinj _ _ hee'.2.1 hee.1 (by omega)
      exact hnorev e' he'E e he ⟨h12, h21⟩
    · intro hcon
      have h22 : e'.2 = e.2 := hinj _ _ hee'.2.1 hee.2.1 hcon
      have : (ntq.getD e'.1 0 : ℤ) = (ntq.getD e.1 0 : ℤ) := by
        rw [← hfe'.2, ← hfe.2, hcon]
      have h11 : e'.1 = e.1 := hinj _ _ hee'.1 hee.1 (by omega)
      exact hne (Prod.ext h11 h22)
  have hq12 : ntq.getD e.2 0 ≠ ntq.getD e.1 0 := by
    intro hcon
    exact hee.2.2 (hinj _ _ hee.2.1 hee.1 hcon).symm
  have hmemf : e ∈ edges.filter (cnot_fires ntq qt) :=
    List.mem_filter.mpr ⟨he, hf⟩
  have hndf : (edges.filter (cnot_fires ntq qt)).Nodup := hndE.filter _
  constructor
  · exact count_uses_one ntq _ _ e (Or.inl ⟨rfl, hq12⟩) hmemf hndf
      (fun e' he' hne => (key e' he' hne).1)
  · exact count_uses_one ntq _ _ e (Or.inr ⟨fun h => hq12 h.symm, rfl⟩) hmemf hndf
      (fun e' he' hne => (key e' he' hne).2)

theorem recompute_targets_succ (circuit : List (List ℕ)) (m : ℕ) (cp : List ℕ)
    (qt : List ℤ) :
    recompute_targets circuit (m + 1) cp qt
      = (recompute_targets circuit m cp qt).set m (next_target circuit cp m) := by
  unfold recompute_targets
  rw [List.range_succ, List.foldl_append]
  rfl

theorem recompute_targets_length (circuit : List (List ℕ)) (n : ℕ) (cp : List ℕ)
    (qt : List ℤ) :
    (recompute_targets circuit n cp qt).length = qt.length := by
  induction n with
  | zero => rfl
  | succ m ih => rw [recompute_targets_succ, List.length_set, ih]

theorem recompute_targets_getD (circuit : List (List ℕ)) (n : ℕ) (cp : List ℕ)
    (qt : List ℤ) (q : ℕ) :
    q < n → n ≤ qt.length →
    (recompute_targets circuit n cp qt).getD q 0 = next_target circuit cp q := by
  induction n with
  | zero => omega
  | succ m ih =>
    intro hq hn
    rw [recompute_targets_succ]
    by_cases hqm : q = m
    · subst hqm
      exact getD_set_self _ _ _ _ (by rw [recompute_targets_length]; omega)
    · rw [getD_set_ne _ _ _ _ _ (fun h => hqm h.symm)]
      exact ih (by omega) (by omega)

/-- C2: characterization of `execute_cnot` (apply-ready-interactions).  Under
the device-validity hypotheses (valid, distinct, unduplicated edges; a
node-to-qubit permutation): (1) an interaction fires on a device edge
`(n1, n2)` iff the qubits `q1`, `q2` at `n1` and `n2` mutually name each other
as next targets; (2) every fired interaction bumps `circuit_progress` of both
its qubits by exactly one; (3) after the scan, every qubit's recomputed target
is the sentinel `-1` exactly when its progress has reached the length of its
interaction sequence. -/
theorem execute_cnot_spec (s : CircuitStateDQN)
    (hperm : s.node_to_qubit.Perm (List.range s.device.n))
    (hqt : s.qubit_targets.length = s.device.n)
    (hcp : s.circuit_progress.length = s.device.n)
    (hedges : ∀ e ∈ s.device.edges, e.1 < s.device.n ∧ e.2 < s.device.n ∧ e.1 ≠ e.2)
    (hndE : s.device.edges.Nodup)
    (hnorev : ∀ e ∈ s.device.edges, ∀ e' ∈ s.device.edges,
        ¬(e.1 = e'.2 ∧ e.2 = e'.1)) :
    (∀ e, e ∈ (execute_cnot s).2 ↔ e ∈ s.device.edges ∧
        s.qubit_targets.getD (s.node_to_qubit.getD e.1 0) 0
          = (s.node_to_qubit.getD e.2 0 : ℤ) ∧
        s.qubit_targets.getD (s.node_to_qubit.getD e.2 0) 0
          = (s.node_to_qubit.getD e.1 0 : ℤ)) ∧
    (∀ e ∈ (execute_cnot s).2,
        (execute_cnot s).1.circuit_progress.getD (s.node_to_qubit.getD e.1 0) 0
          = s.circuit_progress.getD (s.node_to_qubit.getD e.1 0) 0 + 1 ∧
        (execute_cnot s).1.circuit_progress.getD (s.node_to_qubit.getD e.2 0) 0
          = s.circuit_progress.getD (s.node_to_qubit.getD e.2 0) 0 + 1) ∧
    (∀ q, q < s.device.n →
        ((execute_cnot s).1.qubit_targets.getD q 0 = -1 ↔
          ((s.circuit.getD q []).length : ℕ)
            ≤ (execute_cnot s).1.circuit_progress.getD q 0)) := by
  have hlen : s.node_to_qubit.length = s.device.n := by
    simpa using hperm.length_eq
  have hnd : s.node_to_qubit.Nodup := hperm.nodup_iff.mpr (List.nodup_range _)
  have hmem : ∀ a ∈ s.node_to_qubit, a < s.device.n := by
    intro a ha
    exact List.mem_range.mp (hperm.mem_iff.mp ha)
  have hget : ∀ i, i < s.device.n → s.node_to_qubit.getD i 0 < s.device.n := by
    intro i hi
    rw [List.getD_eq_getElem _ _ (by omega)]
    exact hmem _ (List.getElem_mem _)
  have hsnd : (execute_cnot s).2
      = s.device.edges.filter (cnot_fires s.node_to_qubit s.qubit_targets) := by
    show (cnot_scan _ _ _ _ _).2 = _
    rw [cnot_scan_snd]
    rfl
  have hfst : (execute_cnot s).1.circuit_progress
      = (cnot_scan s.node_to_qubit s.qubit_targets s.device.edges
          s.circuit_progress []).1 := rfl
  have hendq : ∀ e ∈ s.device.edges,
      s.node_to_qubit.getD e.1 0 < s.circuit_progress.length ∧
      s.node_to_qubit.getD e.2 0 < s.circuit_progress.length := by
    intro e he
    have h := hedges e he
    have := hget e.1 h.1
    have := hget e.2 h.2.1
    omega
  refine ⟨?_, ?_, ?_⟩
  · intro e
    rw [hsnd, List.mem_filter]
    simp [cnot_fires, Bool.and_eq_true, beq_iff_eq]
  · intro e he
    rw [hsnd] at he
    have heE : e ∈ s.device.edges := (List.mem_filter.mp he).1
    have hf : cnot_fires s.node_to_qubit s.qubit_targets e = true :=
      (List.mem_filter.mp he).2
    have hcount := fired_count_one s.node_to_qubit s.qubit_targets s.device.edges
      s.device.n hlen hnd hmem hedges hndE hnorev e heE hf
    have h := hedges e heE
    constructor
    · rw [hfst, cnot_scan_fst_getD _ _ _ _ _ _
        (by have := hget e.1 h.1; omega) hendq, hcount.1]
    · rw [hfst, cnot_scan_fst_getD _ _ _ _ _ _
        (by have := hget e.2 h.2.1; omega) hendq, hcount.2]
  · intro q hq
    have hqt' : (execute_cnot s).1.qubit_targets
        = recompute_targets s.circuit s.device.n
            (cnot_scan s.node_to_qubit s.qubit_targets s.device.edges
              s.circuit_progress []).1 s.qubit_targets := rfl
    rw [hqt', recompute_targets_getD _ _ _ _ _ hq (by omega), hfst]
    unfold next_target
    by_cases hlt : (cnot_scan s.node_to_qubit s.qubit_targets s.device.edges
        s.circuit_progress []).1.getD q 0 < (s.circuit.getD q []).length
    · rw [if_pos hlt]
      constructor
      · intro habs
        omega
      · intro habs
        omega
    · rw [if_neg hlt]
      constructor
      · intro _
        omega
      · intro _
        rfl

/-- Witness for C2: the spec's two-node scenario — one edge, qubits 0 and 1
mutually targeting each other; the interaction fires, both progress counters
advance to 1, and both targets become the sentinel. -/
theorem execute_cnot_spec_witness :
    (([0, 1] : List ℕ).Perm (List.range 2)) ∧
    ((0, 1) ∈ (execute_cnot
      { circuit := [[1], [0]],
        device := { n := 2, edges := [(0, 1)], distances := fun _ _ => 0 },
        node_to_qubit := [0, 1], qubit_targets := [1, 0],
        circuit_progress := [0, 0], locked_edges := [0] }).2 ↔
      ((0, 1) ∈ [((0 : ℕ), (1 : ℕ))] ∧
        ([1, 0] : List ℤ).getD (([0, 1] : List ℕ).getD 0 0) 0
          = (([0, 1] : List ℕ).getD 1 0 : ℤ) ∧
        ([1, 0] : List ℤ).getD (([0, 1] : List ℕ).getD 1 0) 0
          = (([0, 1] : List ℕ).getD 0 0 : ℤ))) := by
  constructor
  · decide
  · exact (execute_cnot_spec _ (by decide) (by decide) (by decide) (by decide)
      (by decide) (by decide)).1 (0, 1)

/-! ## `update_locks`, `is_done`, `locked_edges` mask -/

/-- `CircuitStateDQN.update_locks` (state.py lines 87-91): with no mask,
`self._locked_edges -= self._locked_edges > 0` decays every positive counter
by one; with a mask, `self._locked_edges += mask * multiplier` adds
elementwise. -/
def update_locks (mask : Option (List ℤ)) (multiplier : ℤ)
    (s : CircuitStateDQN) : CircuitStateDQN :=
  match mask with
  | none =>
      { s with locked_edges :=
          s.locked_edges.map (fun e => e - (if 0 < e then 1 else 0)) }
  | some m =>
      { s with locked_edges :=
          List.zipWith (fun e v => e + v * multiplier) s.locked_edges m }

/-- The `locked_edges` property (state.py lines 93-95): boolean mask of
edges with a positive lock counter. -/
def locked_edges_mask (s : CircuitStateDQN) : List Bool :=
  s.locked_edges.map (fun e => decide (0 < e))

/-- `CircuitStateDQN.is_done` (state.py lines 78-83): every qubit target is
the sentinel. -/
def is_done (s : CircuitStateDQN) : Bool :=
  s.qubit_targets.all (fun t => t == -1)

/-- C9: `update_locks` with no mask maps every nonnegative lock counter `e`
to `max (e - 1) 0`; so every positive counter drops by exactly one, no
counter becomes negative, and an all-zero lock vector is left unchanged. -/
theorem update_locks_decay (s : CircuitStateDQN) (multiplier : ℤ)
    (hnn : ∀ e ∈ s.locked_edges, 0 ≤ e) :
    ((update_locks none multiplier s).locked_edges
        = s.locked_edges.map (fun e => max (e - 1) 0)) ∧
    (∀ e ∈ (update_locks none multiplier s).locked_edges, 0 ≤ e) ∧
    ((∀ e ∈ s.locked_edges, e = 0) →
        (update_locks none multiplier s).locked_edges = s.locked_edges) := by
  refine ⟨?_, ?_, ?_⟩
  · show s.locked_edges.map _ = s.locked_edges.map _
    apply List.map_congr_left
    intro e he
    have := hnn e he
    by_cases h : 0 < e
    · rw [if_pos h]; omega
    · rw [if_neg h]; omega
  · intro e he
    show 0 ≤ e
    simp only [update_locks, List.mem_map] at he
    obtain ⟨a, ha, rfl⟩ := he
    have := hnn a ha
    by_cases h : 0 < a
    · rw [if_pos h]; omega
    · rw [if_neg h]; omega
  · intro hz
    show s.locked_edges.map _ = s.locked_edges
    have : s.locked_edges.map (fun e => e - (if 0 < e then 1 else 0))
        = s.locked_edges.map id := by
      apply List.map_congr_left
      intro e he
      have := hz e he
      subst this
      simp
    rw [this, List.map_id]

/-- Witness for C9: decaying the concrete lock vector `[2, 0, 1]`. -/
theorem update_locks_decay_witness :
    ((∀ e ∈ ([2, 0, 1] : List ℤ), 0 ≤ e) ∧
      (update_locks none 0
        { circuit := [[]], device := { n := 1, edges := [], distances := fun _ _ => 0 },
          node_to_qubit := [0], qubit_targets := [-1],
          circuit_progress := [0], locked_edges := [2, 0, 1] }).locked_edges
        = ([2, 0, 1] : List ℤ).map (fun e => max (e - 1) 0)) := by
  refine ⟨by decide, ?_⟩
  exact (update_locks_decay _ 0 (by decide)).1

/-! ## `qubit_to_node` and `target_distance` -/

/-- The inverse-permutation construction repeated in the state's derived
views (state.py lines 128-130, 143-145, 157-159, 179-181): start from a zero
array and write node index `i` at position `node_to_qubit[i]`. -/
def qubit_to_node (ntq : List ℕ) : List ℕ :=
  ntq.enum.foldl (fun acc p => acc.set p.2 p.1) (List.replicate ntq.length 0)

/-- numpy integer indexing `l[i]` with Python semantics: a negative index
counts from the end of the array. -/
def pyGetD (l : List ℕ) (i : ℤ) (d : ℕ) : ℕ :=
  if 0 ≤ i then l.getD i.toNat d else l.getD (l.length - (-i).toNat) d

/-- `CircuitStateDQN.target_distance` (state.py lines 137-149): for each
qubit `i`, the device distance from the node holding `i` to
`qubit_to_node[qubit_targets[i]]` — the sentinel `-1` is not special-cased
and indexes the last entry of `qubit_to_node`. -/
def target_distance (s : CircuitStateDQN) : List ℕ :=
  let qtn := qubit_to_node s.node_to_qubit
  s.qubit_targets.enum.foldl
    (fun acc p =>
      acc.set p.1 (s.device.distances (qtn.getD p.1 0) (pyGetD qtn p.2 0)))
    (List.replicate s.node_to_qubit.length 0)

theorem inv_fold_length (l : List ℕ) :
    ∀ (st : ℕ) (acc : List ℕ),
    ((l.enumFrom st).foldl (fun a p => a.set p.2 p.1) acc).length = acc.length := by
  induction l with
  | nil => intro st acc; rfl
  | cons x xs ih =>
    intro st acc
    show ((xs.enumFrom (st + 1)).foldl _ (acc.set x st)).length = _
    rw [ih (st + 1) (acc.set x st), List.length_set]

theorem inv_fold_getD_not_mem (l : List ℕ) :
    ∀ (st : ℕ) (acc : List ℕ) (v : ℕ), v ∉ l →
    ((l.enumFrom st).foldl (fun a p => a.set p.2 p.1) acc).getD v 0
      = acc.getD v 0 := by
  induction l with
  | nil => intro st acc v _; rfl
  | cons x xs ih =>
    intro st acc v hv
    show ((xs.enumFrom (st + 1)).foldl _ (acc.set x st)).getD v 0 = _
    rw [ih (st + 1) (acc.set x st) v (fun h => hv (List.mem_cons_of_mem x h)),
      getD_set_ne _ _ _ _ _
        (fun h => hv (by rw [← h]; exact List.mem_cons_self x xs))]

theorem inv_fold_getD (l : List ℕ) :
    ∀ (st : ℕ) (acc : List ℕ), l.Nodup → (∀ a ∈ l, a < acc.length) →
    ∀ (i : ℕ) (hi : i < l.length),
    ((l.enumFrom st).foldl (fun a p => a.set p.2 p.1) acc).getD (l.get ⟨i, hi⟩) 0
      = st + i := by
  induction l with
  | nil => intro st acc _ _ i hi; simp at hi
  | cons x xs ih =>
    intro st acc hnd hm i hi
    show ((xs.enumFrom (st + 1)).foldl _ (acc.set x st)).getD _ 0 = _
    match i with
    | 0 =>
      show ((xs.enumFrom (st + 1)).foldl _ (acc.set x st)).getD x 0 = st + 0
      rw [inv_fold_getD_not_mem xs (st + 1) (acc.set x st) x
          (List.nodup_cons.mp hnd).1,
        getD_set_self _ _ _ _ (hm x (List.mem_cons_self x xs))]
      omega
    | j + 1 =>
      have hj : j < xs.length := by
        simpa using hi
      have := ih (st + 1) (acc.set x st) (List.nodup_cons.mp hnd).2
        (fun a ha => by rw [List.length_set]; exact hm a (List.mem_cons_of_mem x ha))
        j hj
      rw [List.get_cons_succ]
      rw [this]
      omega

theorem qubit_to_node_length (ntq : List ℕ) :
    (qubit_to_node ntq).length = ntq.length := by
  unfold qubit_to_node
  rw [List.enum, inv_fold_length, List.length_replicate]

theorem qubit_to_node_getD (ntq : List ℕ) (hnd : ntq.Nodup)
    (hm : ∀ a ∈ ntq, a < ntq.length) (i : ℕ) (hi : i < ntq.length) :
    (qubit_to_node ntq).getD (ntq.get ⟨i, hi⟩) 0 = i := by
  unfold qubit_to_node
  rw [List.enum]
  rw [inv_fold_getD ntq 0 (List.replicate ntq.length 0) hnd
    (fun a ha => by rw [List.length_replicate]; exact hm a ha) i hi]
  omega

theorem enum_fold_set_getD_lt {β : Type} (g : ℕ → ℤ → β) (l : List ℤ) :
    ∀ (st : ℕ) (acc : List β) (d : β) (j : ℕ), j < st →
    ((l.enumFrom st).foldl (fun a p => a.set p.1 (g p.1 p.2)) acc).getD j d
      = acc.getD j d := by
  induction l with
  | nil => intro st acc d j _; rfl
  | cons x xs ih =>
    intro st acc d j hj
    show ((xs.enumFrom (st + 1)).foldl _ (acc.set st (g st x))).getD j d = _
    rw [ih (st + 1) _ d j (by omega), getD_set_ne _ _ _ _ _ (by omega)]

theorem enum_fold_set_getD {β : Type} (g : ℕ → ℤ → β) (l : List ℤ) :
    ∀ (st : ℕ) (acc : List β) (d : β) (i : ℕ) (hi : i < l.length),
    st + l.length ≤ acc.length →
    ((l.enumFrom st).foldl (fun a p => a.set p.1 (g p.1 p.2)) acc).getD (st + i) d
      = g (st + i) (l.get ⟨i, hi⟩) := by
  induction l with
  | nil => intro st acc d i hi _; simp at hi
  | cons x xs ih =>
    intro st acc d i hi hlen
    show ((xs.enumFrom (st + 1)).foldl _ (acc.set st (g st x))).getD (st + i) d = _
    match i with
    | 0 =>
      rw [enum_fold_set_getD_lt g xs (st + 1) _ d (st + 0) (by omega)]
      show (acc.set st (g st x)).getD (st + 0) d = _
      have hst : st + 0 = st := by omega
      rw [hst]
      exact getD_set_self _ _ _ _ (by simp at hlen ⊢; omega)
    | j + 1 =>
      have hj : j < xs.length := by simpa using hi
      have := ih (st + 1) (acc.set st (g st x)) d j hj
        (by rw [List.length_set]; simp at hlen; omega)
      rw [List.get_cons_succ]
      have harith : st + (j + 1) = (st + 1) + j := by omega
      rw [harith, this]

/-- C10: for every qubit `q`, `target_distance` returns
`distances[qubit_to_node[q], qubit_to_node[qubit_targets[q]]]` with numpy
indexing and no special case for the sentinel; when `qubit_targets[q] = -1`
the sentinel indexes the last entry of `qubit_to_node`, which is the node
currently holding the highest-numbered qubit `N - 1` — so a finished qubit's
reported distance is the distance to that node (not necessarily `0`). -/
theorem target_distance_spec (s : CircuitStateDQN)
    (hperm : s.node_to_qubit.Perm (List.range s.device.n))
    (hqt : s.qubit_targets.length = s.device.n) :
    (∀ q, q < s.device.n →
      (target_distance s).getD q 0
        = s.device.distances ((qubit_to_node s.node_to_qubit).getD q 0)
            (pyGetD (qubit_to_node s.node_to_qubit) (s.qubit_targets.getD q 0) 0)) ∧
    (∀ q, q < s.device.n → s.qubit_targets.getD q 0 = -1 →
      (target_distance s).getD q 0
        = s.device.distances ((qubit_to_node s.node_to_qubit).getD q 0)
            ((qubit_to_node s.node_to_qubit).getD (s.device.n - 1) 0) ∧
      s.node_to_qubit.getD
          ((qubit_to_node s.node_to_qubit).getD (s.device.n - 1) 0) 0
        = s.device.n - 1) := by
  have hlen : s.node_to_qubit.length = s.device.n := by
    simpa using hperm.length_eq
  have hqtnlen : (qubit_to_node s.node_to_qubit).length = s.device.n := by
    rw [qubit_to_node_length, hlen]
  have hpart1 : ∀ q, q < s.device.n →
      (target_distance s).getD q 0
        = s.device.distances ((qubit_to_node s.node_to_qubit).getD q 0)
            (pyGetD (qubit_to_node s.node_to_qubit) (s.qubit_targets.getD q 0) 0) := by
    intro q hq
    have hqlt : q < s.qubit_targets.length := by omega
    have happ := enum_fold_set_getD
      (fun i v => s.device.distances ((qubit_to_node s.node_to_qubit).getD i 0)
        (pyGetD (qubit_to_node s.node_to_qubit) v 0))
      s.qubit_targets 0 (List.replicate s.node_to_qubit.length 0) 0 q hqlt
      (by rw [List.length_replicate]; omega)
    rw [Nat.zero_add] at happ
    unfold target_distance
    rw [List.enum]
    rw [happ, List.get_eq_getElem, List.getD_eq_getElem _ _ hqlt]
  refine ⟨hpart1, ?_⟩
  intro q hq hsent
  have hn : 0 < s.device.n := by omega
  have hnd : s.node_to_qubit.Nodup := hperm.nodup_iff.mpr (List.nodup_range _)
  have hmem : ∀ a ∈ s.node_to_qubit, a < s.node_to_qubit.length := by
    intro a ha
    have := List.mem_range.mp (hperm.mem_iff.mp ha)
    omega
  have hpy : pyGetD (qubit_to_node s.node_to_qubit) (-1) 0
      = (qubit_to_node s.node_to_qubit).getD (s.device.n - 1) 0 := by
    unfold pyGetD
    rw [if_neg (by omega)]
    rw [hqtnlen]
    rfl
  have hlast : s.node_to_qubit.getD
      ((qubit_to_node s.node_to_qubit).getD (s.device.n - 1) 0) 0
      = s.device.n - 1 := by
    have hmem' : s.device.n - 1 ∈ s.node_to_qubit :=
      hperm.mem_iff.mpr (List.mem_range.mpr (by omega))
    obtain ⟨i, hval⟩ := List.mem_iff_get.mp hmem'
    have h2 : (qubit_to_node s.node_to_qubit).getD (s.node_to_qubit.get i) 0
        = i.1 := qubit_to_node_getD s.node_to_qubit hnd hmem i.1 i.2
    rw [← hval, h2, List.getD_eq_getElem _ _ i.2]
    rfl
  refine ⟨?_, hlast⟩
  rw [hpart1 q hq, hsent, hpy]

/-- A 3-node path device with the line metric, used by concrete witnesses. -/
def lineDevice : Device :=
  { n := 3, edges := [(0, 1), (1, 2)], distances := fun i j => max i j - min i j }

/-- A concrete routing state on `lineDevice`: qubit 0 finished, qubits 1 and
2 still targeting each other. -/
def lineState : CircuitStateDQN :=
  { circuit := [[], [2], [1]], device := lineDevice,
    node_to_qubit := [0, 1, 2], qubit_targets := [-1, 1, 1],
    circuit_progress := [0, 0, 0], locked_edges := [0, 0] }

/-- Witness for C10: on `lineState`, qubit 0 is finished
(`qubit_targets[0] = -1`) yet its reported target distance is the distance to
the node of qubit 2, which is `2`, not `0`. -/
theorem target_distance_spec_witness :
    (lineState.node_to_qubit.Perm (List.range lineState.device.n) ∧
      lineState.qubit_targets.length = lineState.device.n) ∧
    ((target_distance lineState).getD 0 0
      = lineState.device.distances
          ((qubit_to_node lineState.node_to_qubit).getD 0 0)
          ((qubit_to_node lineState.node_to_qubit).getD
            (lineState.device.n - 1) 0) ∧
      lineState.node_to_qubit.getD
          ((qubit_to_node lineState.node_to_qubit).getD
            (lineState.device.n - 1) 0) 0
        = lineState.device.n - 1) ∧
    (target_distance lineState).getD 0 0 ≠ 0 := by
  refine ⟨⟨by decide, by decide⟩, ?_, by decide⟩
  exact (target_distance_spec lineState (by decide) (by decide)).2 0
    (by decide) (by decide)

/-! ## `__copy__` / `__eq__` and array aliasing

`CircuitStateDQN.__copy__` builds a new state from `np.copy` of each of the
four arrays, keeping the same `circuit`/`device` references; mutating the
copy must leave the original's arrays untouched.  To make the aliasing claim
meaningful, states are modelled as objects holding *addresses* of their four
arrays in a heap; every mutating method writes only through its own object's
addresses, and `__copy__` allocates fresh addresses. -/

/-- `CircuitStateDQN.__eq__` (state.py lines 110-120): `np.array_equal` on
exactly the four mutable arrays; `circuit`/`device` are not compared. -/
def state_eq (s1 s2 : CircuitStateDQN) : Bool :=
  s1.node_to_qubit == s2.node_to_qubit &&
  s1.qubit_targets == s2.qubit_targets &&
  s1.circuit_progress == s2.circuit_progress &&
  s1.locked_edges == s2.locked_edges

/-- A heap of numpy arrays: one address space per array type; `next` is the
allocation counter (every live address is `< next`). -/
structure Heap where
  ntq_store : ℕ → List ℕ
  qt_store : ℕ → List ℤ
  cp_store : ℕ → List ℕ
  le_store : ℕ → List ℤ
  next : ℕ

/-- A routing-state object: shared `circuit`/`device` references and the
addresses of its four mutable arrays. -/
structure StateRef where
  circuit : List (List ℕ)
  device : Device
  ntq_ref : ℕ
  qt_ref : ℕ
  cp_ref : ℕ
  le_ref : ℕ

/-- Read a state object's current value out of the heap. -/
def deref (h : Heap) (r : StateRef) : CircuitStateDQN :=
  { circuit := r.circuit, device := r.device,
    node_to_qubit := h.ntq_store r.ntq_ref,
    qubit_targets := h.qt_store r.qt_ref,
    circuit_progress := h.cp_store r.cp_ref,
    locked_edges := h.le_store r.le_ref }

/-- All four addresses of `r` are live in `h`. -/
def ref_valid (h : Heap) (r : StateRef) : Bool :=
  decide (r.ntq_ref < h.next) && decide (r.qt_ref < h.next) &&
  decide (r.cp_ref < h.next) && decide (r.le_ref < h.next)

/-- `CircuitStateDQN.__copy__` (state.py lines 99-107): `np.copy` each of the
four arrays into freshly allocated addresses, sharing `circuit`/`device`. -/
def copy_state (h : Heap) (r : StateRef) : StateRef × Heap :=
  let s := deref h r
  (⟨r.circuit, r.device, h.next, h.next, h.next, h.next⟩,
   { ntq_store := fun x => if x = h.next then s.node_to_qubit else h.ntq_store x,
     qt_store := fun x => if x = h.next then s.qubit_targets else h.qt_store x,
     cp_store := fun x => if x = h.next then s.circuit_progress else h.cp_store x,
     le_store := fun x => if x = h.next then s.locked_edges else h.le_store x,
     next := h.next + 1 })

/-- `execute_swap` as an in-place mutation: write the updated
`node_to_qubit` back through the state's own address. -/
def heap_execute_swap (solution : List Bool) (h : Heap) (r : StateRef) : Heap :=
  { h with ntq_store := fun x =>
      if x = r.ntq_ref then (execute_swap solution (deref h r)).1.node_to_qubit
      else h.ntq_store x }

/-- `execute_cnot` as an in-place mutation of `circuit_progress` and
`qubit_targets`. -/
def heap_execute_cnot (h : Heap) (r : StateRef) : Heap :=
  { h with
    cp_store := fun x =>
      if x = r.cp_ref then (execute_cnot (deref h r)).1.circuit_progress
      else h.cp_store x,
    qt_store := fun x =>
      if x = r.qt_ref then (execute_cnot (deref h r)).1.qubit_targets
      else h.qt_store x }

/-- `update_locks` as an in-place mutation of `locked_edges`. -/
def heap_update_locks (mask : Option (List ℤ)) (multiplier : ℤ)
    (h : Heap) (r : StateRef) : Heap :=
  { h with le_store := fun x =>
      if x = r.le_ref then (update_locks mask multiplier (deref h r)).locked_edges
      else h.le_store x }

/-- C8: `__copy__` yields a state that compares equal to the original under
`__eq__`; `__eq__` compares exactly the four mutable arrays (states sharing
the arrays but differing in `circuit`/`device` compare equal); copying does
not disturb the original; and mutating the copy through any state operation
(`execute_swap`, `execute_cnot`, `update_locks`) leaves all four arrays of
the original unchanged. -/
theorem copy_state_spec (h : Heap) (r : StateRef)
    (hv : ref_valid h r = true) :
    (state_eq (deref (copy_state h r).2 (copy_state h r).1)
        (deref (copy_state h r).2 r) = true) ∧
    (∀ (c1 c2 : List (List ℕ)) (d1 d2 : Device) (a : List ℕ) (b : List ℤ)
        (c : List ℕ) (d : List ℤ),
      state_eq ⟨c1, d1, a, b, c, d⟩ ⟨c2, d2, a, b, c, d⟩ = true) ∧
    (deref (copy_state h r).2 r = deref h r) ∧
    (∀ solution,
      deref (heap_execute_swap solution (copy_state h r).2 (copy_state h r).1) r
        = deref (copy_state h r).2 r) ∧
    (deref (heap_execute_cnot (copy_state h r).2 (copy_state h r).1) r
        = deref (copy_state h r).2 r) ∧
    (∀ mask multiplier,
      deref (heap_update_locks mask multiplier
          (copy_state h r).2 (copy_state h r).1) r
        = deref (copy_state h r).2 r) := by
  simp only [ref_valid, Bool.and_eq_true, decide_eq_true_eq] at hv
  obtain ⟨⟨⟨h1, h2⟩, h3⟩, h4⟩ := hv
  have e1 : r.ntq_ref ≠ h.next := by omega
  have e2 : r.qt_ref ≠ h.next := by omega
  have e3 : r.cp_ref ≠ h.next := by omega
  have e4 : r.le_ref ≠ h.next := by omega
  refine ⟨?_, ?_, ?_, ?_, ?_, ?_⟩
  · simp [state_eq, deref, copy_state, e1, e2, e3, e4]
  · intro c1 c2 d1 d2 a b c d
    simp [state_eq]
  · simp [deref, copy_state, e1, e2, e3, e4]
  · intro solution
    simp [deref, heap_execute_swap, copy_state, e1, e2, e3, e4]
  · simp [deref, heap_execute_cnot, copy_state, e1, e2, e3, e4]
  · intro mask multiplier
    simp [deref, heap_update_locks, copy_state, e1, e2, e3, e4]

/-- A concrete two-node device and heap for the C8 witness. -/
def twoDevice : Device :=
  { n := 2, edges := [(0, 1)], distances := fun i j => max i j - min i j }

/-- A one-object heap holding the arrays of a two-qubit routing state. -/
def heap0 : Heap :=
  { ntq_store := fun _ => [0, 1], qt_store := fun _ => [1, 0],
    cp_store := fun _ => [0, 0], le_store := fun _ => [3], next := 1 }

/-- The state object living at address 0 of `heap0`. -/
def ref0 : StateRef :=
  { circuit := [[1], [0]], device := twoDevice,
    ntq_ref := 0, qt_ref := 0, cp_ref := 0, le_ref := 0 }

/-- Witness for C8 at the concrete heap `heap0`. -/
theorem copy_state_spec_witness :
    (ref_valid heap0 ref0 = true) ∧
    (state_eq (deref (copy_state heap0 ref0).2 (copy_state heap0 ref0).1)
        (deref (copy_state heap0 ref0).2 ref0) = true) :=
  ⟨by decide, (copy_state_spec heap0 ref0 (by decide)).1⟩

/-! ## The caller-side lock check of `train_step` -/

/-- The action assertion of `train_step` (engine.py line 38):
`assert not np.any(np.bitwise_and(state.locked_edges, action))`. -/
def train_step_lock_assert (locked_mask action : List Bool) : Bool :=
  !(List.zipWith (fun l a => l && a) locked_mask action).any (fun b => b)

theorem train_step_lock_assert_false_iff (locked action : List Bool) :
    train_step_lock_assert locked action = false ↔
    ∃ i, locked.getD i false = true ∧ action.getD i false = true := by
  induction locked generalizing action with
  | nil =>
    constructor
    · intro habs
      simp [train_step_lock_assert] at habs
    · rintro ⟨i, hi, _⟩
      simp [List.getD] at hi
  | cons l ls ih =>
    cases action with
    | nil =>
      constructor
      · intro habs
        simp [train_step_lock_assert] at habs
      · rintro ⟨i, _, ha⟩
        simp [List.getD] at ha
    | cons a as =>
      have hrest : (List.zipWith (fun l a => l && a) ls as).any (fun b => b) = true
          ↔ ∃ i, ls.getD i false = true ∧ as.getD i false = true := by
        rw [← ih as]
        simp [train_step_lock_assert]
      constructor
      · intro hfalse
        simp only [train_step_lock_assert, List.zipWith_cons_cons, List.any_cons,
          Bool.not_eq_false', Bool.or_eq_true, Bool.and_eq_true] at hfalse
        rcases hfalse with ⟨hl, ha⟩ | hany
        · exact ⟨0, hl, ha⟩
        · obtain ⟨i, h1, h2⟩ := hrest.mp hany
          exact ⟨i + 1, h1, h2⟩
      · rintro ⟨i, h1, h2⟩
        simp only [train_step_lock_assert, List.zipWith_cons_cons, List.any_cons,
          Bool.not_eq_false', Bool.or_eq_true, Bool.and_eq_true]
        match i with
        | 0 => exact Or.inl ⟨h1, h2⟩
        | j + 1 => exact Or.inr (hrest.mpr ⟨j, h1, h2⟩)

/-- A concrete state whose single edge holds a positive lock counter. -/
def lockedState : CircuitStateDQN :=
  { circuit := [[1], [0]], device := twoDevice, node_to_qubit := [0, 1],
    qubit_targets := [1, 0], circuit_progress := [0, 0], locked_edges := [5] }

/-- Counterexample to C4 as stated: `execute_swap` applied to a solution
selecting an edge with a positive lock counter does *not* fail — the source
method performs no validation and raises nothing (there is no
`InvalidActionError` anywhere in the sources).  The call completes normally,
returns the locked edge in its execution trace, and exchanges the mapping. -/
theorem execute_swap_locked_counterexample :
    locked_edges_mask lockedState = [true] ∧
    (execute_swap [true] lockedState).2 = [(0, 1)] ∧
    (execute_swap [true] lockedState).1.node_to_qubit = [1, 0] := by
  refine ⟨?_, ?_, ?_⟩ <;> rfl

/-- C4 (amended): `execute_swap` itself validates nothing and never raises —
its result is independent of the lock counters (the swap is applied even on
a locked edge), but the permutation is still preserved, so the mapping is
not corrupted; the only lock enforcement at this call site is the caller's
`assert` in `train_step`, which fails (an `AssertionError`, not an
`InvalidActionError`) exactly when the proposed action selects some
positively-locked edge. -/
theorem execute_swap_no_validation (s : CircuitStateDQN) (solution : List Bool)
    (locked' : List ℤ)
    (hperm : s.node_to_qubit.Perm (List.range s.device.n))
    (hend : ∀ e ∈ s.device.edges, e.1 < s.device.n ∧ e.2 < s.device.n) :
    ((execute_swap solution { s with locked_edges := locked' }).1.node_to_qubit
        = (execute_swap solution s).1.node_to_qubit ∧
      (execute_swap solution { s with locked_edges := locked' }).2
        = (execute_swap solution s).2) ∧
    ((execute_swap solution s).1).node_to_qubit.Perm (List.range s.device.n) ∧
    (∀ locked action : List Bool,
      train_step_lock_assert locked action = false ↔
      ∃ i, locked.getD i false = true ∧ action.getD i false = true) := by
  refine ⟨⟨rfl, rfl⟩, ?_, train_step_lock_assert_false_iff⟩
  have hlen : s.node_to_qubit.length = s.device.n := by
    simpa using hperm.length_eq
  have hend' : ∀ e ∈ s.device.edges.zip solution,
      e.1.1 < s.node_to_qubit.length ∧ e.1.2 < s.node_to_qubit.length := by
    intro e he
    have := hend e.1 (List.of_mem_zip he).1
    omega
  exact (execute_swap_foldl_perm (s.device.edges.zip solution)
    s.node_to_qubit [] hend').trans hperm

/-- Witness for the amended C4 at `lockedState` with the locked edge
selected. -/
theorem execute_swap_no_validation_witness :
    (lockedState.node_to_qubit.Perm (List.range lockedState.device.n) ∧
      ∀ e ∈ lockedState.device.edges,
        e.1 < lockedState.device.n ∧ e.2 < lockedState.device.n) ∧
    ((execute_swap [true] lockedState).1).node_to_qubit.Perm
      (List.range lockedState.device.n) := by
  refine ⟨⟨by decide, by decide⟩, ?_⟩
  exact (execute_swap_no_validation lockedState [true] [0]
    (by decide) (by decide)).2.1

/-! ## Simulated annealing (`qroute/algorithms/simanneal.py`)

The annealer consumes three external capabilities, passed here as explicit
parameters (spec §6 and design notes): `choose` stands for
`np.random.choice` over a nonempty list of eligible edge indices, `accept`
for the randomized Metropolis test
`acceptance_probability(current_energy, new_energy, temp) > np.random.random()`
(indexed by the iteration counter; when the new energy is strictly lower the
probability is `1`, which always exceeds `np.random.random() ∈ [0, 1)`), and
`energy` for the oracle `get_energy` at the fixed state and action-chooser of
the call. -/

instance {ε α : Type} [DecidableEq ε] [DecidableEq α] :
    DecidableEq (Except ε α) := fun a b =>
  match a, b with
  | .error x, .error y =>
    if h : x = y then .isTrue (congrArg Except.error h)
    else .isFalse (fun hc => h (Except.error.inj hc))
  | .ok x, .ok y =>
    if h : x = y then .isTrue (congrArg Except.ok h)
    else .isFalse (fun hc => h (Except.ok.inj hc))
  | .error _, .ok _ => .isFalse (fun hc => Except.noConfusion hc)
  | .ok _, .error _ => .isFalse (fun hc => Except.noConfusion hc)

/-- Annealer hyper-parameters (simanneal.py lines 27-29). -/
def initial_temperature : ℚ := 60

/-- `self.min_temperature = 0.1`. -/
def min_temperature : ℚ := 1 / 10

/-- `self.cooling_multiplier = 0.95`. -/
def cooling_multiplier : ℚ := 19 / 20

/-- Two edges share no endpoint node. -/
def edges_disjoint (a b : ℕ × ℕ) : Bool :=
  a.1 != b.1 && a.1 != b.2 && a.2 != b.1 && a.2 != b.2

/-- Modelled from the spec: `CircuitStateDQN.swappable_edges` is called by
the annealer (simanneal.py lines 43 and 174) but its definition is not among
the provided sources.  Spec §4.3: an edge is eligible to flip iff it is not
locked and neither endpoint is already used by a *different* selected edge,
so the solution stays a partial matching by construction.  Returns the
eligible edge indices. -/
def swappable_edges (edges : List (ℕ × ℕ)) (locked : List Bool)
    (solution : List Bool) : List ℕ :=
  (List.range edges.length).filter fun i =>
    !(locked.getD i false) &&
    (List.range edges.length).all fun j =>
      j == i || !(solution.getD j false) ||
        edges_disjoint (edges.getD i (0, 0)) (edges.getD j (0, 0))

/-- Modelled from the spec: `CircuitStateDQN.protected_edges` (simanneal.py
line 51) is not among the provided sources; per spec §4.3/§7 the mask that
blocks the validity check is the locked-edge mask. -/
def protected_edges (locked : List Bool) : List Bool := locked

/-- The `seen`-set duplicate scan of `check_valid_solution` (simanneal.py
lines 102-107). -/
def has_duplicate_node (seen : List ℕ) : List ℕ → Bool
  | [] => false
  | n :: rest => if n ∈ seen then true else has_duplicate_node (n :: seen) rest

/-- Flatten a list of edges into their endpoint nodes, in order
(`swap_nodes`, simanneal.py line 100). -/
def node_uses (es : List (ℕ × ℕ)) : List ℕ :=
  es.foldr (fun e acc => e.1 :: e.2 :: acc) []

/-- The selected edges of a solution, in index order (`swap_edges`,
simanneal.py lines 98-99). -/
def selected_edges (edges : List (ℕ × ℕ)) (solution : List Bool) :
    List (ℕ × ℕ) :=
  ((List.range edges.length).filter (fun i => solution.getD i false)).map
    (fun i => edges.getD i (0, 0))

/-- `AnnealerDQN.check_valid_solution` (simanneal.py lines 85-107): raise if
a selected edge is in the forced mask, or if a node occurs twice among the
selected edges' endpoints. -/
def check_valid_solution (edges : List (ℕ × ℕ)) (solution : List Bool)
    (forced_mask : List Bool) : Except String Unit :=
  if (List.range solution.length).any
      (fun i => forced_mask.getD i false && solution.getD i false) then
    .error "Solution is not safe: Protected edge is being swapped"
  else if solution.any (fun b => b) &&
      has_duplicate_node [] (node_uses (selected_edges edges solution)) then
    .error "Solution is not safe: Same node is being used twice"
  else
    .ok ()

/-- `AnnealerDQN.get_neighbour_solution` (simanneal.py lines 35-53): copy the
current solution, flip one eligible edge picked by the random source, then
validate; raises `RuntimeError` when no eligible edge remains. -/
def get_neighbour_solution (choose : List ℕ → ℕ) (edges : List (ℕ × ℕ))
    (locked : List Bool) (current_solution : List Bool) :
    Except String (List Bool) :=
  let available := swappable_edges edges locked current_solution
  if available.isEmpty then
    .error "Ran out of edges to swap"
  else
    let idx := choose available
    let neighbour := current_solution.set idx (!current_solution.getD idx false)
    match check_valid_solution edges neighbour (protected_edges locked) with
    | .error e => .error e
    | .ok _ => .ok neighbour

/-- `AnnealerDQN.generate_initial_solution` (simanneal.py lines 166-180):
start all-zero; if any edge is eligible, flip one picked at random. -/
def generate_initial_solution (choose : List ℕ → ℕ) (edges : List (ℕ × ℕ))
    (locked : List Bool) : List Bool :=
  let initial := List.replicate edges.length false
  let available := swappable_edges edges locked initial
  if available.isEmpty then initial
  else initial.set (choose available) (!initial.getD (choose available) false)

/-- The mutable variables of the annealing loop (simanneal.py lines 133-139). -/
structure AnnealLoopState where
  current_solution : List Bool
  current_energy : ℚ
  best_solution : List Bool
  best_energy : ℚ
  iterations_since_best : ℕ
  iterations : ℕ

/-- The accept-and-track-best block of the loop body (simanneal.py lines
149-158): on acceptance move the chain to the neighbour; additionally record
it as best when its energy beats the best energy seen. -/
def anneal_accept (st : AnnealLoopState) (new_solution : List Bool)
    (new_energy : ℚ) (accepted : Bool) : AnnealLoopState :=
  if accepted then
    if new_energy < st.best_energy then
      { current_solution := new_solution, current_energy := new_energy,
        best_solution := new_solution, best_energy := new_energy,
        iterations_since_best := 0, iterations := st.iterations }
    else
      { st with current_solution := new_solution, current_energy := new_energy }
  else st

/-- The `while temp > self.min_temperature` loop of `simulated_annealing`
(simanneal.py lines 141-162).  `fuel` bounds the recursion depth only; it is
provably never exhausted from the initial temperature
(`anneal_loop_no_fuel_error`), so the embedding agrees with the unbounded
Python loop. -/
def anneal_loop (choose : List ℕ → ℕ) (accept : ℕ → ℚ → ℚ → ℚ → Bool)
    (energy : List Bool → ℚ) (edges : List (ℕ × ℕ)) (locked : List Bool)
    (search_limit : Option ℕ) :
    ℕ → ℚ → AnnealLoopState → Except String AnnealLoopState
  | 0, _, _ => .error "out of fuel"
  | fuel + 1, temp, st =>
    if min_temperature < temp then
      if (match search_limit with
          | some limit => decide (limit < st.iterations)
          | none => false) then
        .ok st
      else
        match get_neighbour_solution choose edges locked st.current_solution with
        | .error e => .error e
        | .ok new_solution =>
          let new_energy := energy new_solution
          let st1 := anneal_accept st new_solution new_energy
            (accept st.iterations st.current_energy new_energy temp)
          anneal_loop choose accept energy edges locked search_limit fuel
            (temp * cooling_multiplier)
            { st1 with
              iterations_since_best := st1.iterations_since_best + 1,
              iterations := st1.iterations + 1 }
    else .ok st

/-- `AnnealerDQN.simulated_annealing` (simanneal.py lines 109-164), returning
`(best_solution, best_energy, iterations)`.  The degenerate all-zero initial
candidate short-circuits to `(-inf, modelled as ⊥)` or `0` depending on
`action_chooser`, before any oracle call or loop iteration; the
`assert temp_state == new_state` of lines 120-123 compares two fresh copies
of an unmutated state and always passes.  The iteration counter is returned
so the loop's resource usage can be specified. -/
def simulated_annealing (choose : List ℕ → ℕ) (accept : ℕ → ℚ → ℚ → ℚ → Bool)
    (energy : List Bool → ℚ) (edges : List (ℕ × ℕ)) (locked : List Bool)
    (action_chooser : String) (search_limit : Option ℕ) :
    Except String (List Bool × WithBot ℚ × ℕ) :=
  let current_solution := generate_initial_solution choose edges locked
  if current_solution.all (fun b => !b) then
    .ok (current_solution,
      if action_chooser = "model" then (⊥ : WithBot ℚ) else ((0 : ℚ) : WithBot ℚ),
      0)
  else
    let current_energy := energy current_solution
    match anneal_loop choose accept energy edges locked search_limit 200
        initial_temperature
        { current_solution := current_solution, current_energy := current_energy,
          best_solution := current_solution, best_energy := current_energy,
          iterations_since_best := 0, iterations := 0 } with
    | .error e => .error e
    | .ok st => .ok (st.best_solution, (st.best_energy : WithBot ℚ), st.iterations)

/-! ## Safety of every returned solution (C3) -/

/-- Spec §4.3 validity: no selected edge is locked, and the selected edges
are pairwise vertex-disjoint. -/
def valid_solution (edges : List (ℕ × ℕ)) (locked : List Bool)
    (solution : List Bool) : Prop :=
  (∀ i, solution.getD i false = true → locked.getD i false = false) ∧
  pairwise_disjoint_selected edges solution = true

theorem has_duplicate_node_false (ns : List ℕ) :
    ∀ seen, has_duplicate_node seen ns = false →
    ns.Nodup ∧ ∀ x ∈ ns, x ∉ seen := by
  induction ns with
  | nil => intro seen _; exact ⟨List.nodup_nil, by simp⟩
  | cons n rest ih =>
    intro seen h
    rw [has_duplicate_node] at h
    by_cases hmem : n ∈ seen
    · rw [if_pos hmem] at h; cases h
    · rw [if_neg hmem] at h
      obtain ⟨hnd, hsub⟩ := ih (n :: seen) h
      refine ⟨List.nodup_cons.mpr ⟨?_, hnd⟩, ?_⟩
      · intro hmem'
        exact (hsub n hmem') (List.mem_cons_self n seen)
      · intro x hx
        rcases List.mem_cons.mp hx with rfl | hx'
        · exact hmem
        · exact fun hxseen => (hsub x hx') (List.mem_cons_of_mem n hxseen)

theorem count_cons_ge (a v : ℕ) (l : List ℕ) :
    l.count v ≤ (a :: l).count v := by
  by_cases h : v = a
  · rw [h, List.count_cons_self]; omega
  · rw [List.count_cons_of_ne h]

theorem node_uses_count_ge_one (es : List (ℕ × ℕ)) (e : ℕ × ℕ) (v : ℕ) :
    e ∈ es → (v = e.1 ∨ v = e.2) → 1 ≤ (node_uses es).count v := by
  induction es with
  | nil => intro h _; cases h
  | cons a rest ih =>
    intro hmem hv
    have hcons : node_uses (a :: rest) = a.1 :: a.2 :: node_uses rest := rfl
    rw [hcons]
    rcases List.mem_cons.mp hmem with rfl | hmem'
    · rcases hv with hv | hv
      · rw [← hv, List.count_cons_self]; omega
      · have h1 : 1 ≤ (e.2 :: node_uses rest).count v := by
          rw [← hv, List.count_cons_self]; omega
        exact le_trans h1 (count_cons_ge _ _ _)
    · have h1 := ih hmem' hv
      exact le_trans h1 (le_trans (count_cons_ge a.2 v _) (count_cons_ge a.1 v _))

theorem node_uses_count_ge_two (f : ℕ → ℕ × ℕ) (l : List ℕ) (i j v : ℕ) :
    i ∈ l → j ∈ l → i ≠ j → (v = (f i).1 ∨ v = (f i).2) →
    (v = (f j).1 ∨ v = (f j).2) →
    2 ≤ (node_uses (l.map f)).count v := by
  induction l with
  | nil => intro h _ _ _ _; cases h
  | cons x rest ih =>
    intro hi hj hij hvi hvj
    have hcons : node_uses ((x :: rest).map f)
        = (f x).1 :: (f x).2 :: node_uses (rest.map f) := rfl
    rw [hcons]
    have hhead : ∀ w : ℕ, (w = (f x).1 ∨ w = (f x).2) →
        1 ≤ (node_uses (rest.map f)).count w →
        2 ≤ ((f x).1 :: (f x).2 :: node_uses (rest.map f)).count w := by
      intro w hw htail
      rcases hw with hw | hw
      · rw [← hw, List.count_cons_self]
        have h2 := count_cons_ge (f x).2 w (node_uses (rest.map f))
        omega
      · have h2 : 2 ≤ ((f x).2 :: node_uses (rest.map f)).count w := by
          rw [← hw, List.count_cons_self]; omega
        exact le_trans h2 (count_cons_ge _ _ _)
    rcases List.mem_cons.mp hi with hix | hi'
    · rcases List.mem_cons.mp hj with hjx | hj'
      · exact absurd (hix.trans hjx.symm) hij
      · have htail : 1 ≤ (node_uses (rest.map f)).count v :=
          node_uses_count_ge_one _ (f j) v (List.mem_map_of_mem f hj') hvj
        exact hhead v (by rw [hix] at hvi; exact hvi) htail
    · rcases List.mem_cons.mp hj with hjx | hj'
      · have htail : 1 ≤ (node_uses (rest.map f)).count v :=
          node_uses_count_ge_one _ (f i) v (List.mem_map_of_mem f hi') hvi
        exact hhead v (by rw [hjx] at hvj; exact hvj) htail
      · have hrest := ih hi' hj' hij hvi hvj
        exact le_trans hrest
          (le_trans (count_cons_ge (f x).2 v _) (count_cons_ge (f x).1 v _))

theorem valid_of_none_selected (edges : List (ℕ × ℕ)) (locked : List Bool)
    (solution : List Bool) (hall : ∀ i, solution.getD i false = false) :
    valid_solution edges locked solution := by
  constructor
  · intro i hsel
    rw [hall i] at hsel
    cases hsel
  · unfold pairwise_disjoint_selected
    rw [List.all_eq_true]
    intro i _
    rw [List.all_eq_true]
    intro j _
    rw [Bool.or_eq_true, Bool.or_eq_true, Bool.or_eq_true]
    exact Or.inl (Or.inr (by rw [hall j]; rfl))

theorem check_valid_ok (edges : List (ℕ × ℕ)) (solution locked : List Bool) :
    check_valid_solution edges solution (protected_edges locked) = .ok () →
    valid_solution edges locked solution := by
  intro h
  unfold check_valid_solution at h
  by_cases h1 : (List.range solution.length).any
      (fun i => (protected_edges locked).getD i false && solution.getD i false)
  · rw [if_pos h1] at h; cases h
  · rw [if_neg h1] at h
    have hc1 : ∀ i, solution.getD i false = true → locked.getD i false = false := by
      intro i hsel
      by_cases hilen : i < solution.length
      · cases hb : locked.getD i false
        · rfl
        · exfalso
          apply h1
          rw [List.any_eq_true]
          refine ⟨i, List.mem_range.mpr hilen, ?_⟩
          show ((protected_edges locked).getD i false && solution.getD i false)
            = true
          rw [protected_edges, hb, hsel]
          rfl
      · rw [List.getD_eq_default _ _ (by omega)] at hsel
        cases hsel
    refine ⟨hc1, ?_⟩
    by_cases hsel : solution.any (fun b => b)
    · have hdup : has_duplicate_node []
          (node_uses (selected_edges edges solution)) = false := by
        cases hd : has_duplicate_node []
          (node_uses (selected_edges edges solution))
        · rfl
        · rw [if_pos (by rw [hsel, hd]; rfl)] at h
          cases h
      have hnd := (has_duplicate_node_false _ [] hdup).1
      have hcnt := List.nodup_iff_count_le_one.mp hnd
      unfold pairwise_disjoint_selected
      rw [List.all_eq_true]
      intro i hi
      rw [List.all_eq_true]
      intro j hj
      by_cases hij : i = j
      · rw [Bool.or_eq_true, Bool.or_eq_true, Bool.or_eq_true]
        exact Or.inl (Or.inl (Or.inl (by rw [hij]; exact beq_self_eq_true j)))
      by_cases hsi : solution.getD i false
      case neg =>
        have hsi' : solution.getD i false = false := by
          cases hb : solution.getD i false
          · rfl
          · exact absurd hb hsi
        rw [Bool.or_eq_true, Bool.or_eq_true, Bool.or_eq_true]
        exact Or.inl (Or.inl (Or.inr (by rw [hsi']; rfl)))
      by_cases hsj : solution.getD j false
      case neg =>
        have hsj' : solution.getD j false = false := by
          cases hb : solution.getD j false
          · rfl
          · exact absurd hb hsj
        rw [Bool.or_eq_true, Bool.or_eq_true, Bool.or_eq_true]
        exact Or.inl (Or.inr (by rw [hsj']; rfl))
      rw [Bool.or_eq_true, Bool.or_eq_true, Bool.or_eq_true]
      refine Or.inr ?_
      simp only [Bool.and_eq_true, bne_iff_ne, ne_eq]
      have hkey : ∀ v : ℕ,
          (v = (edges.getD i (0, 0)).1 ∨ v = (edges.getD i (0, 0)).2) →
          (v = (edges.getD j (0, 0)).1 ∨ v = (edges.getD j (0, 0)).2) → False := by
        intro v hvi hvj
        have hif : i ∈ (List.range edges.length).filter
            (fun k => solution.getD k false) := List.mem_filter.mpr ⟨hi, hsi⟩
        have hjf : j ∈ (List.range edges.length).filter
            (fun k => solution.getD k false) := List.mem_filter.mpr ⟨hj, hsj⟩
        have h2 := node_uses_count_ge_two (fun k => edges.getD k (0, 0)) _
          i j v hif hjf hij hvi hvj
        have h3 := hcnt v
        rw [selected_edges] at h3
        omega
      refine ⟨⟨⟨?_, ?_⟩, ?_⟩, ?_⟩
      · exact fun hc => hkey _ (Or.inl rfl) (Or.inl hc)
      · exact fun hc => hkey _ (Or.inl rfl) (Or.inr hc)
      · exact fun hc => hkey _ (Or.inr rfl) (Or.inl hc)
      · exact fun hc => hkey _ (Or.inr rfl) (Or.inr hc)
    · have hall : ∀ i, solution.getD i false = false := by
        intro i
        by_cases hlt : i < solution.length
        · cases hb : solution.getD i false
          · rfl
          · exfalso
            apply hsel
            rw [List.any_eq_true]
            refine ⟨solution.getD i false, ?_, by rw [hb]⟩
            rw [List.getD_eq_getElem _ _ hlt]
            exact List.getElem_mem _
        · exact List.getD_eq_default _ _ (by omega)
      exact (valid_of_none_selected edges locked solution hall).2

theorem get_neighbour_solution_valid (choose : List ℕ → ℕ)
    (edges : List (ℕ × ℕ)) (locked : List Bool) (cur sol : List Bool) :
    get_neighbour_solution choose edges locked cur = .ok sol →
    valid_solution edges locked sol := by
  intro h
  unfold get_neighbour_solution at h
  by_cases he : (swappable_edges edges locked cur).isEmpty
  · rw [if_pos he] at h; cases h
  · rw [if_neg he] at h
    cases hc : check_valid_solution edges
        (cur.set (choose (swappable_edges edges locked cur))
          (!cur.getD (choose (swappable_edges edges locked cur)) false))
        (protected_edges locked) with
    | error e =>
      simp only [hc] at h
      cases h
    | ok u =>
      cases u
      simp only [hc] at h
      injection h with h'
      rw [← h']
      exact check_valid_ok edges _ locked hc

theorem replicate_false_getD (n i : ℕ) :
    (List.replicate n false).getD i false = false := by
  by_cases hlt : i < n
  · rw [List.getD_eq_getElem _ _ (by simpa using hlt)]
    exact List.getElem_replicate _ _
  · exact List.getD_eq_default _ _ (by simpa using hlt)

theorem generate_initial_solution_valid (choose : List ℕ → ℕ)
    (edges : List (ℕ × ℕ)) (locked : List Bool)
    (hchoose : ∀ l : List ℕ, l ≠ [] → choose l ∈ l) :
    valid_solution edges locked
      (generate_initial_solution choose edges locked) := by
  unfold generate_initial_solution
  by_cases he : (swappable_edges edges locked
      (List.replicate edges.length false)).isEmpty
  · rw [if_pos he]
    exact valid_of_none_selected edges locked _
      (fun i => replicate_false_getD _ i)
  · rw [if_neg he]
    have hne : swappable_edges edges locked
        (List.replicate edges.length false) ≠ [] := by
      intro hnil
      rw [hnil] at he
      exact he rfl
    have hidx := hchoose _ hne
    have hmemf := List.mem_filter.mp hidx
    have hlt : choose (swappable_edges edges locked
        (List.replicate edges.length false)) < edges.length :=
      List.mem_range.mp hmemf.1
    have hnl : locked.getD (choose (swappable_edges edges locked
        (List.replicate edges.length false))) false = false := by
      have h2 := hmemf.2
      rw [Bool.and_eq_true] at h2
      have h3 := h2.1
      cases hb : locked.getD (choose (swappable_edges edges locked
          (List.replicate edges.length false))) false
      · rfl
      · rw [hb] at h3; cases h3
    have hsel : ∀ i,
        ((List.replicate edges.length false).set
          (choose (swappable_edges edges locked
            (List.replicate edges.length false)))
          (!(List.replicate edges.length false).getD
            (choose (swappable_edges edges locked
              (List.replicate edges.length false))) false)).getD i false = true →
        i = choose (swappable_edges edges locked
          (List.replicate edges.length false)) := by
      intro i hi
      by_contra hne'
      rw [getD_set_ne _ _ _ _ _ (fun hcc => hne' hcc.symm),
        replicate_false_getD] at hi
      cases hi
    constructor
    · intro i hi
      rw [hsel i hi]
      exact hnl
    · unfold pairwise_disjoint_selected
      rw [List.all_eq_true]
      intro i _
      rw [List.all_eq_true]
      intro j _
      rw [Bool.or_eq_true, Bool.or_eq_true, Bool.or_eq_true]
      by_cases hij : i = j
      · exact Or.inl (Or.inl (Or.inl (by rw [hij]; exact beq_self_eq_true j)))
      by_cases hsi : ((List.replicate edges.length false).set
          (choose (swappable_edges edges locked
            (List.replicate edges.length false)))
          (!(List.replicate edges.length false).getD
            (choose (swappable_edges edges locked
              (List.replicate edges.length false))) false)).getD i false = true
      · by_cases hsj : ((List.replicate edges.length false).set
            (choose (swappable_edges edges locked
              (List.replicate edges.length false)))
            (!(List.replicate edges.length false).getD
              (choose (swappable_edges edges locked
                (List.replicate edges.length false))) false)).getD j false = true
        · exact absurd ((hsel i hsi).trans (hsel j hsj).symm) hij
        · refine Or.inl (Or.inr ?_)
          cases hb : ((List.replicate edges.length false).set
              (choose (swappable_edges edges locked
                (List.replicate edges.length false)))
              (!(List.replicate edges.length false).getD
                (choose (swappable_edges edges locked
                  (List.replicate edges.length false))) false)).getD j false
          · rfl
          · exact absurd hb hsj
      · refine Or.inl (Or.inl (Or.inr ?_))
        cases hb : ((List.replicate edges.length false).set
            (choose (swappable_edges edges locked
              (List.replicate edges.length false)))
            (!(List.replicate edges.length false).getD
              (choose (swappable_edges edges locked
                (List.replicate edges.length false))) false)).getD i false
        · rfl
        · exact absurd hb hsi

theorem anneal_accept_current (st : AnnealLoopState) (ns : List Bool)
    (ne : ℚ) (a : Bool) :
    (anneal_accept st ns ne a).current_solution = ns ∨
    (anneal_accept st ns ne a).current_solution = st.current_solution := by
  unfold anneal_accept
  split_ifs <;> simp

theorem anneal_accept_best (st : AnnealLoopState) (ns : List Bool)
    (ne : ℚ) (a : Bool) :
    (anneal_accept st ns ne a).best_solution = ns ∨
    (anneal_accept st ns ne a).best_solution = st.best_solution := by
  unfold anneal_accept
  split_ifs <;> simp

theorem anneal_accept_iterations (st : AnnealLoopState) (ns : List Bool)
    (ne : ℚ) (a : Bool) :
    (anneal_accept st ns ne a).iterations = st.iterations := by
  unfold anneal_accept
  split_ifs <;> rfl

theorem anneal_loop_valid (choose : List ℕ → ℕ)
    (accept : ℕ → ℚ → ℚ → ℚ → Bool) (energy : List Bool → ℚ)
    (edges : List (ℕ × ℕ)) (locked : List Bool) (limit : Option ℕ) :
    ∀ (fuel : ℕ) (temp : ℚ) (st st' : AnnealLoopState),
    valid_solution edges locked st.current_solution →
    valid_solution edges locked st.best_solution →
    anneal_loop choose accept energy edges locked limit fuel temp st = .ok st' →
    valid_solution edges locked st'.best_solution := by
  intro fuel
  induction fuel with
  | zero => intro temp st st' _ _ h; cases h
  | succ f ih =>
    intro temp st st' hcur hbest h
    simp only [anneal_loop] at h
    split at h
    case isTrue ht =>
      split at h
      case isTrue hl =>
        injection h with h'
        rw [← h']
        exact hbest
      case isFalse hl =>
        split at h
        case h_1 e hnb => cases h
        case h_2 nb hnb =>
          have hnbv := get_neighbour_solution_valid choose edges locked _ nb hnb
          refine ih _ _ _ ?_ ?_ h
          · show valid_solution edges locked
              (anneal_accept st nb (energy nb) _).current_solution
            rcases anneal_accept_current st nb (energy nb)
                (accept st.iterations st.current_energy (energy nb) temp) with
              hc | hc
            · rw [hc]; exact hnbv
            · rw [hc]; exact hcur
          · show valid_solution edges locked
              (anneal_accept st nb (energy nb) _).best_solution
            rcases anneal_accept_best st nb (energy nb)
                (accept st.iterations st.current_energy (energy nb) temp) with
              hb | hb
            · rw [hb]; exact hnbv
            · rw [hb]; exact hbest
    case isFalse ht =>
      injection h with h'
      rw [← h']
      exact hbest

/-- C3: any solution returned by `simulated_annealing`, for any input
lock mask, random source, acceptance draws, oracle and budget, selects only
pairwise vertex-disjoint edges none of which is locked; candidates that
would violate this never reach the accept step — `check_valid_solution`
raises on them instead (modelled by the `Except.error` branch). -/
theorem simulated_annealing_safety (choose : List ℕ → ℕ)
    (accept : ℕ → ℚ → ℚ → ℚ → Bool) (energy : List Bool → ℚ)
    (edges : List (ℕ × ℕ)) (locked : List Bool) (action_chooser : String)
    (search_limit : Option ℕ) (sol : List Bool) (en : WithBot ℚ) (iters : ℕ)
    (hchoose : ∀ l : List ℕ, l ≠ [] → choose l ∈ l)
    (h : simulated_annealing choose accept energy edges locked action_chooser
        search_limit = .ok (sol, en, iters)) :
    valid_solution edges locked sol := by
  unfold simulated_annealing at h
  by_cases hz : (generate_initial_solution choose edges locked).all
      (fun b => !b)
  · rw [if_pos hz] at h
    injection h with h'
    have hsol : sol = generate_initial_solution choose edges locked :=
      (congrArg Prod.fst h').symm
    rw [hsol]
    exact generate_initial_solution_valid choose edges locked hchoose
  · rw [if_neg hz] at h
    cases hloop : anneal_loop choose accept energy edges locked search_limit
        200 initial_temperature
        { current_solution := generate_initial_solution choose edges locked,
          current_energy := energy (generate_initial_solution choose edges locked),
          best_solution := generate_initial_solution choose edges locked,
          best_energy := energy (generate_initial_solution choose edges locked),
          iterations_since_best := 0, iterations := 0 } with
    | error e =>
      simp only [hloop] at h
      cases h
    | ok st =>
      simp only [hloop] at h
      injection h with h'
      have hsol : sol = st.best_solution := (congrArg Prod.fst h').symm
      rw [hsol]
      exact anneal_loop_valid choose accept energy edges locked search_limit
        200 initial_temperature _ st
        (generate_initial_solution_valid choose edges locked hchoose)
        (generate_initial_solution_valid choose edges locked hchoose) hloop

/-- One non-exit iteration of the annealing loop, as an equation. -/
theorem anneal_loop_step (choose : List ℕ → ℕ)
    (accept : ℕ → ℚ → ℚ → ℚ → Bool) (energy : List Bool → ℚ)
    (edges : List (ℕ × ℕ)) (locked : List Bool) (limit : Option ℕ)
    (fuel : ℕ) (temp : ℚ) (st : AnnealLoopState) (nb : List Bool)
    (ht : min_temperature < temp)
    (hl : (match limit with
        | some l => decide (l < st.iterations)
        | none => false) = false)
    (hnb : get_neighbour_solution choose edges locked st.current_solution
        = .ok nb) :
    anneal_loop choose accept energy edges locked limit (fuel + 1) temp st
      = anneal_loop choose accept energy edges locked limit fuel
          (temp * cooling_multiplier)
          { anneal_accept st nb (energy nb)
              (accept st.iterations st.current_energy (energy nb) temp) with
            iterations_since_best :=
              (anneal_accept st nb (energy nb)
                (accept st.iterations st.current_energy (energy nb)
                  temp)).iterations_since_best + 1,
            iterations :=
              (anneal_accept st nb (energy nb)
                (accept st.iterations st.current_energy (energy nb)
                  temp)).iterations + 1 } := by
  simp only [anneal_loop]
  rw [if_pos ht, hl, if_neg (by simp), hnb]

/-- The budget exit of the annealing loop, as an equation. -/
theorem anneal_loop_exit (choose : List ℕ → ℕ)
    (accept : ℕ → ℚ → ℚ → ℚ → Bool) (energy : List Bool → ℚ)
    (edges : List (ℕ × ℕ)) (locked : List Bool) (l : ℕ)
    (fuel : ℕ) (temp : ℚ) (st : AnnealLoopState)
    (ht : min_temperature < temp)
    (hl : decide (l < st.iterations) = true) :
    anneal_loop choose accept energy edges locked (some l) (fuel + 1) temp st
      = .ok st := by
  simp only [anneal_loop]
  rw [if_pos ht, hl, if_pos rfl]

/-- The concrete single-edge annealer run used by witnesses and the C7
counterexample: one unlocked edge, first eligible edge always chosen, every
proposal accepted, oracle scoring a solution by its first bit, iteration
budget 0.  The initial candidate `[true]` is flipped once to `[false]`;
with `sgn = -1` the neighbour has lower energy and becomes the best, with
`sgn = 1` the initial candidate stays best.  Either way exactly one
iteration runs before the budget exit. -/
def start_state : AnnealLoopState := ⟨[true], 0, [true], 0, 0, 0⟩

/-- The loop state after the single iteration of the concrete run. -/
def run_state (sgn : ℚ) : AnnealLoopState :=
  ⟨[false], sgn, if sgn < 0 then [false] else [true],
    if sgn < 0 then sgn else 0, 1, 1⟩

theorem concrete_run_eq (sgn : ℚ) :
    simulated_annealing (fun t => t.headD 0) (fun _ _ _ _ => true)
      (fun sol => if sol.getD 0 false then 0 else sgn) [(0, 1)] [false]
      "model" (some 0)
      = .ok (if sgn < 0 then [false] else [true],
          ((if sgn < 0 then sgn else (0 : ℚ)) : WithBot ℚ), 1) := by
  have hinit : generate_initial_solution (fun t : List ℕ => t.headD 0)
      [(0, 1)] [false] = [true] := by decide
  have hnb : get_neighbour_solution (fun t : List ℕ => t.headD 0)
      [(0, 1)] [false] start_state.current_solution = .ok [false] := by decide
  have henergy : (fun sol : List Bool =>
      if sol.getD 0 false then 0 else sgn) [true] = 0 := rfl
  have hacc : anneal_accept start_state [false] sgn true
      = ⟨[false], sgn, if sgn < 0 then [false] else [true],
          if sgn < 0 then sgn else 0, if sgn < 0 then 0 else 0, 0⟩ := by
    by_cases hs : sgn < 0 <;> simp [anneal_accept, start_state, hs]
  have hloop : anneal_loop (fun t : List ℕ => t.headD 0) (fun _ _ _ _ => true)
      (fun sol => if sol.getD 0 false then 0 else sgn) [(0, 1)] [false]
      (some 0) 200 initial_temperature start_state
      = .ok (run_state sgn) := by
    have hstep := anneal_loop_step (fun t : List ℕ => t.headD 0)
      (fun _ _ _ _ => true)
      (fun sol => if sol.getD 0 false then 0 else sgn) [(0, 1)] [false]
      (some 0) 199 initial_temperature start_state [false]
      (by norm_num [min_temperature, initial_temperature]) (by rfl) hnb
    rw [show (200 : ℕ) = 199 + 1 from rfl, hstep]
    simp only [hacc, show (fun sol : List Bool =>
      if sol.getD 0 false then 0 else sgn) [false] = sgn from rfl]
    rw [show (199 : ℕ) = 198 + 1 from rfl]
    have hexit := anneal_loop_exit (fun t : List ℕ => t.headD 0)
      (fun _ _ _ _ => true)
      (fun sol => if sol.getD 0 false then 0 else sgn) [(0, 1)] [false]
      0 198 (initial_temperature * cooling_multiplier) (run_state sgn)
      (by norm_num [min_temperature, initial_temperature, cooling_multiplier])
      (by rfl)
    by_cases hs : sgn < 0 <;>
      simp only [run_state, hs, if_pos, if_neg, if_true, if_false,
        ite_true, ite_false] at hexit ⊢ <;>
      exact hexit
  unfold simulated_annealing
  rw [hinit]
  rw [if_neg (by decide)]
  show (match anneal_loop (fun t : List ℕ => t.headD 0) (fun _ _ _ _ => true)
      (fun sol => if sol.getD 0 false then 0 else sgn) [(0, 1)] [false]
      (some 0) 200 initial_temperature start_state with
    | Except.error e => Except.error e
    | Except.ok st =>
        Except.ok (st.best_solution, (st.best_energy : WithBot ℚ),
          st.iterations)) = _
  rw [hloop]
  by_cases hs : sgn < 0 <;> simp [run_state, hs]

/-- Witness for C3: the concrete single-edge run with `sgn = 1` returns the
solution `[true]` (the unlocked edge selected), certified valid by the
theorem. -/
theorem simulated_annealing_safety_witness :
    ((∀ l : List ℕ, l ≠ [] → (fun t : List ℕ => t.headD 0) l ∈ l) ∧
      simulated_annealing (fun t => t.headD 0) (fun _ _ _ _ => true)
        (fun sol => if sol.getD 0 false then 0 else 1) [(0, 1)] [false]
        "model" (some 0)
        = .ok ([true], ((0 : ℚ) : WithBot ℚ), 1)) ∧
    valid_solution [(0, 1)] [false] [true] := by
  have hchoose : ∀ l : List ℕ, l ≠ [] → (fun t : List ℕ => t.headD 0) l ∈ l := by
    intro l hl
    cases l with
    | nil => exact absurd rfl hl
    | cons a t => exact List.mem_cons_self a t
  have hrun : simulated_annealing (fun t => t.headD 0) (fun _ _ _ _ => true)
      (fun sol => if sol.getD 0 false then 0 else 1) [(0, 1)] [false]
      "model" (some 0)
      = .ok ([true], ((0 : ℚ) : WithBot ℚ), 1) := by
    have h := concrete_run_eq 1
    rw [if_neg (by norm_num), if_neg (by norm_num)] at h
    exact h
  exact ⟨⟨hchoose, hrun⟩,
    simulated_annealing_safety _ _ _ _ _ _ _ _ _ _ hchoose hrun⟩

/-! ## Termination of the annealing loop (C5) -/

theorem anneal_loop_iterations_le (choose : List ℕ → ℕ)
    (accept : ℕ → ℚ → ℚ → ℚ → Bool) (energy : List Bool → ℚ)
    (edges : List (ℕ × ℕ)) (locked : List Bool) (limit : Option ℕ) :
    ∀ (fuel n : ℕ) (temp : ℚ) (st st' : AnnealLoopState),
    temp * cooling_multiplier ^ n ≤ min_temperature →
    anneal_loop choose accept energy edges locked limit fuel temp st = .ok st' →
    st'.iterations ≤ st.iterations + n := by
  intro fuel
  induction fuel with
  | zero => intro n temp st st' _ h; cases h
  | succ f ih =>
    intro n temp st st' hn h
    simp only [anneal_loop] at h
    split at h
    case isTrue ht =>
      split at h
      case isTrue hl =>
        injection h with h'
        rw [← h']
        omega
      case isFalse hl =>
        split at h
        case h_1 e hnb => cases h
        case h_2 nb hnb =>
          match n with
          | 0 =>
            rw [pow_zero, mul_one] at hn
            exact absurd hn (not_le.mpr ht)
          | m + 1 =>
            have hn' : (temp * cooling_multiplier) * cooling_multiplier ^ m
                ≤ min_temperature := by
              rw [mul_assoc, ← pow_succ']
              exact hn
            have hrec := ih m (temp * cooling_multiplier) _ st' hn' h
            simp only [anneal_accept_iterations] at hrec
            omega
    case isFalse ht =>
      injection h with h'
      rw [← h']
      omega

/-- C5: the cooling rate lies strictly between 0 and 1, so past the
degenerate short-circuit the temperature strictly decreases every iteration
(`temp * cooling_multiplier < temp` whenever the loop condition
`min_temperature < temp` holds); `125 = ceil(log(T_min/T0)/log(cooling_rate))`
is characterized arithmetically by
`T0·c^125 ≤ T_min < T0·c^124`, and with no tighter iteration budget every run
of `simulated_annealing` performs at most 125 iterations. -/
theorem simulated_annealing_termination :
    ((0 : ℚ) < cooling_multiplier ∧ cooling_multiplier < 1) ∧
    (∀ t : ℚ, min_temperature < t → t * cooling_multiplier < t) ∧
    (initial_temperature * cooling_multiplier ^ 125 ≤ min_temperature ∧
      min_temperature < initial_temperature * cooling_multiplier ^ 124) ∧
    (∀ (choose : List ℕ → ℕ) (accept : ℕ → ℚ → ℚ → ℚ → Bool)
        (energy : List Bool → ℚ) (edges : List (ℕ × ℕ)) (locked : List Bool)
        (action_chooser : String) (sol : List Bool) (en : WithBot ℚ) (iters : ℕ),
      simulated_annealing choose accept energy edges locked action_chooser none
        = .ok (sol, en, iters) → iters ≤ 125) := by
  refine ⟨⟨by norm_num [cooling_multiplier], by norm_num [cooling_multiplier]⟩,
    ?_, ⟨?_, ?_⟩, ?_⟩
  · intro t ht
    have ht0 : (0 : ℚ) < t := by
      have : (0 : ℚ) < min_temperature := by norm_num [min_temperature]
      linarith
    have hc : cooling_multiplier < 1 := by norm_num [cooling_multiplier]
    exact mul_lt_of_lt_one_right ht0 hc
  · norm_num [initial_temperature, cooling_multiplier, min_temperature]
  · norm_num [initial_temperature, cooling_multiplier, min_temperature]
  · intro choose accept energy edges locked action_chooser sol en iters h
    unfold simulated_annealing at h
    by_cases hz : (generate_initial_solution choose edges locked).all
        (fun b => !b)
    · rw [if_pos hz] at h
      injection h with h'
      have : iters = 0 := (congrArg (fun p => p.2.2) h').symm
      omega
    · rw [if_neg hz] at h
      cases hloop : anneal_loop choose accept energy edges locked none 200
          initial_temperature
          { current_solution := generate_initial_solution choose edges locked,
            current_energy :=
              energy (generate_initial_solution choose edges locked),
            best_solution := generate_initial_solution choose edges locked,
            best_energy := energy (generate_initial_solution choose edges locked),
            iterations_since_best := 0, iterations := 0 } with
      | error e =>
        simp only [hloop] at h
        cases h
      | ok st =>
        simp only [hloop] at h
        injection h with h'
        have hit : iters = st.iterations := (congrArg (fun p => p.2.2) h').symm
        have hb := anneal_loop_iterations_le choose accept energy edges locked
          none 200 125 initial_temperature _ st
          (by norm_num [initial_temperature, cooling_multiplier, min_temperature])
          hloop
        simp only at hb
        omega

/-- Witness for C5: the strict-decrease conjunct applied at the initial
temperature, and the bound conjunct applied to a concrete degenerate run. -/
theorem simulated_annealing_termination_witness :
    (min_temperature < initial_temperature ∧
      initial_temperature * cooling_multiplier < initial_temperature) ∧
    (simulated_annealing (fun t => t.headD 0) (fun _ _ _ _ => true) (fun _ => 0)
        [(0, 1)] [true] "model" none
      = .ok ([false], (⊥ : WithBot ℚ), 0) ∧ (0 : ℕ) ≤ 125) := by
  have h1 : min_temperature < initial_temperature := by
    norm_num [min_temperature, initial_temperature]
  have hrun : simulated_annealing (fun t => t.headD 0) (fun _ _ _ _ => true)
      (fun _ => 0) [(0, 1)] [true] "model" none
      = .ok ([false], (⊥ : WithBot ℚ), 0) := by decide
  exact ⟨⟨h1, simulated_annealing_termination.2.1 initial_temperature h1⟩,
    hrun, simulated_annealing_termination.2.2.2 _ _ _ _ _ _ _ _ _ hrun⟩

/-! ## The degenerate no-eligible-edge case (C6) -/

/-- C6: when no edge is eligible for the all-zero solution, the initial
candidate stays all-zero and `simulated_annealing` returns it immediately —
a normal `.ok` return (not the `RuntimeError` of exhausted neighbour
generation), with energy `-inf` (for the `model` chooser) or `0`, zero
iterations, and no oracle call (the result is the same for every `energy`). -/
theorem simulated_annealing_degenerate (choose : List ℕ → ℕ)
    (accept : ℕ → ℚ → ℚ → ℚ → Bool) (energy : List Bool → ℚ)
    (edges : List (ℕ × ℕ)) (locked : List Bool) (action_chooser : String)
    (search_limit : Option ℕ)
    (hempty : swappable_edges edges locked
      (List.replicate edges.length false) = []) :
    simulated_annealing choose accept energy edges locked action_chooser
        search_limit
      = .ok (List.replicate edges.length false,
          if action_chooser = "model" then (⊥ : WithBot ℚ)
          else ((0 : ℚ) : WithBot ℚ), 0) := by
  have hinit : generate_initial_solution choose edges locked
      = List.replicate edges.length false := by
    simp [generate_initial_solution, hempty]
  unfold simulated_annealing
  rw [hinit]
  rw [if_pos ?hall]
  case hall =>
    rw [List.all_eq_true]
    intro x hx
    rw [List.eq_of_mem_replicate hx]
    rfl

/-- Witness for C6: one edge, locked — no eligible edge exists, and the
search returns the all-zero solution with `⊥` (numpy `-inf`) at once. -/
theorem simulated_annealing_degenerate_witness :
    (swappable_edges [(0, 1)] [true] (List.replicate 1 false) = []) ∧
    simulated_annealing (fun t : List ℕ => t.headD 0) (fun _ _ _ _ => true)
      (fun _ => 0) [(0, 1)] [true] "model" none
      = .ok (List.replicate 1 false, (⊥ : WithBot ℚ), 0) := by
  refine ⟨by decide, ?_⟩
  have h := simulated_annealing_degenerate (fun t : List ℕ => t.headD 0)
    (fun _ _ _ _ => true) (fun _ => 0) [(0, 1)] [true] "model" none (by decide)
  rw [if_pos rfl] at h
  exact h

/-! ## A zero search budget still runs one iteration (C7) -/

/-- Counterexample to C7 as stated: with `search_limit = 0` on a state with
one eligible edge, the search does *not* return the initial candidate with
zero proposals — the budget check `iterations > search_limit` only fires
from the second iteration on, so one neighbour is proposed, and (here, with
the neighbour scoring lower) the returned solution `[false]` differs from
the initial candidate `[true]`, with iteration count `1`. -/
theorem simulated_annealing_limit_zero_counterexample :
    generate_initial_solution (fun t : List ℕ => t.headD 0) [(0, 1)] [false]
      = [true] ∧
    simulated_annealing (fun t => t.headD 0) (fun _ _ _ _ => true)
      (fun sol => if sol.getD 0 false then 0 else -1) [(0, 1)] [false]
      "model" (some 0)
      = .ok ([false], ((-1 : ℚ) : WithBot ℚ), 1) := by
  constructor
  · decide
  · have h := concrete_run_eq (-1)
    rw [if_pos (by norm_num), if_pos (by norm_num)] at h
    exact h

/-- The first two entries of the annealing loop under a zero budget: the
first iteration always runs (the budget check compares `0 > 0`), the second
entry exits by budget. -/
theorem anneal_loop_limit_zero (choose : List ℕ → ℕ)
    (accept : ℕ → ℚ → ℚ → ℚ → Bool) (energy : List Bool → ℚ)
    (edges : List (ℕ × ℕ)) (locked : List Bool) (fuel : ℕ) (temp : ℚ)
    (st st' : AnnealLoopState)
    (ht1 : min_temperature < temp)
    (ht2 : min_temperature < temp * cooling_multiplier)
    (hst0 : st.iterations = 0)
    (h : anneal_loop choose accept energy edges locked (some 0) (fuel + 2)
        temp st = .ok st') :
    st'.iterations = 1 := by
  simp only [anneal_loop] at h
  split at h
  case isFalse ht' => exact absurd ht1 ht'
  case isTrue =>
    split at h
    case isTrue hl =>
      rw [hst0] at hl
      simp at hl
    case isFalse hl =>
      split at h
      case h_1 e hnb => cases h
      case h_2 nb hnb =>
        split at h
        case isFalse hl2 =>
          exfalso
          apply hl2
          simp
        case isTrue hl2 =>
          injection h with h'
          rw [← h']
          simp [anneal_accept_iterations, hst0]

/-- C7 (amended): with an iteration budget of zero and at least one eligible
edge, `simulated_annealing` performs exactly one neighbour proposal — the
budget check `iterations > search_limit` is evaluated before the increment,
so the loop body runs once and the returned iteration count is `1` (and the
returned solution may differ from the initial candidate, see the
counterexample). -/
theorem simulated_annealing_limit_zero (choose : List ℕ → ℕ)
    (accept : ℕ → ℚ → ℚ → ℚ → Bool) (energy : List Bool → ℚ)
    (edges : List (ℕ × ℕ)) (locked : List Bool) (action_chooser : String)
    (sol : List Bool) (en : WithBot ℚ) (iters : ℕ)
    (hnz : (generate_initial_solution choose edges locked).all
      (fun b => !b) = false)
    (hr : simulated_annealing choose accept energy edges locked action_chooser
        (some 0) = .ok (sol, en, iters)) :
    iters = 1 := by
  unfold simulated_annealing at hr
  simp only [hnz, Bool.false_eq_true, if_false] at hr
  cases hloop : anneal_loop choose accept energy edges locked (some 0) 200
      initial_temperature
      { current_solution := generate_initial_solution choose edges locked,
        current_energy := energy (generate_initial_solution choose edges locked),
        best_solution := generate_initial_solution choose edges locked,
        best_energy := energy (generate_initial_solution choose edges locked),
        iterations_since_best := 0, iterations := 0 } with
  | error e =>
    simp only [hloop] at hr
    cases hr
  | ok st =>
    simp only [hloop] at hr
    injection hr with hr'
    have hit : iters = st.iterations := (congrArg (fun p => p.2.2) hr').symm
    rw [hit]
    exact anneal_loop_limit_zero choose accept energy edges locked 198
      initial_temperature _ st
      (by norm_num [min_temperature, initial_temperature])
      (by norm_num [min_temperature, initial_temperature, cooling_multiplier])
      rfl hloop

/-- Witness for the amended C7 at the concrete single-edge run. -/
theorem simulated_annealing_limit_zero_witness :
    ((generate_initial_solution (fun t : List ℕ => t.headD 0) [(0, 1)]
        [false]).all (fun b => !b) = false ∧
      simulated_annealing (fun t => t.headD 0) (fun _ _ _ _ => true)
        (fun sol => if sol.getD 0 false then 0 else -1) [(0, 1)] [false]
        "model" (some 0) = .ok ([false], ((-1 : ℚ) : WithBot ℚ), 1)) ∧
    (1 : ℕ) = 1 := by
  have hr : simulated_annealing (fun t : List ℕ => t.headD 0)
      (fun _ _ _ _ => true)
      (fun sol => if sol.getD 0 false then 0 else -1) [(0, 1)] [false]
      "model" (some 0) = .ok ([false], ((-1 : ℚ) : WithBot ℚ), 1) := by
    have h := concrete_run_eq (-1)
    rw [if_pos (by norm_num), if_pos (by norm_num)] at h
    exact h
  exact ⟨⟨by decide, hr⟩,
    simulated_annealing_limit_zero _ _ _ _ _ _ _ _ _ (by decide) hr⟩

/-! ## The recursion fuel of `anneal_loop` is never the binding constraint -/

theorem check_valid_solution_error_ne (edges : List (ℕ × ℕ))
    (solution mask : List Bool) (e : String) :
    check_valid_solution edges solution mask = .error e →
    e ≠ "out of fuel" := by
  intro h
  unfold check_valid_solution at h
  split_ifs at h with h1 h2
  · injection h with h'
    rw [← h']
    decide
  · injection h with h'
    rw [← h']
    decide

theorem get_neighbour_solution_error_ne (choose : List ℕ → ℕ)
    (edges : List (ℕ × ℕ)) (locked cur : List Bool) (e : String) :
    get_neighbour_solution choose edges locked cur = .error e →
    e ≠ "out of fuel" := by
  intro h
  unfold get_neighbour_solution at h
  by_cases he : (swappable_edges edges locked cur).isEmpty
  · rw [if_pos he] at h
    injection h with h'
    rw [← h']
    decide
  · rw [if_neg he] at h
    cases hc : check_valid_solution edges
        (cur.set (choose (swappable_edges edges locked cur))
          (!cur.getD (choose (swappable_edges edges locked cur)) false))
        (protected_edges locked) with
    | error e2 =>
      simp only [hc] at h
      injection h with h'
      rw [← h']
      exact check_valid_solution_error_ne _ _ _ _ hc
    | ok u =>
      cases u
      simp only [hc] at h
      exact Except.noConfusion h

/-- The fuel bound of the embedded loop is unreachable: from any temperature
that decays below `min_temperature` within fewer than `fuel` steps (for the
source's `T0 = 60` this happens in 125 steps, far below the fuel `200` used
by `simulated_annealing`), the loop never returns the fuel-exhaustion error,
so the embedding agrees with the unbounded Python `while` loop. -/
theorem anneal_loop_no_fuel_error (choose : List ℕ → ℕ)
    (accept : ℕ → ℚ → ℚ → ℚ → Bool) (energy : List Bool → ℚ)
    (edges : List (ℕ × ℕ)) (locked : List Bool) (limit : Option ℕ) :
    ∀ (fuel n : ℕ) (temp : ℚ) (st : AnnealLoopState),
    temp * cooling_multiplier ^ n ≤ min_temperature → n < fuel →
    anneal_loop choose accept energy edges locked limit fuel temp st
      ≠ .error "out of fuel" := by
  intro fuel
  induction fuel with
  | zero => intro n temp st _ hnf; omega
  | succ f ih =>
    intro n temp st hn hnf h
    simp only [anneal_loop] at h
    split at h
    case isTrue ht =>
      split at h
      case isTrue hl => exact Except.noConfusion h
      case isFalse hl =>
        split at h
        case h_1 e hnb =>
          injection h with h'
          exact get_neighbour_solution_error_ne _ _ _ _ _ hnb h'
        case h_2 nb hnb =>
          match n, hnf with
          | 0, _ =>
            rw [pow_zero, mul_one] at hn
            exact absurd hn (not_le.mpr ht)
          | m + 1, hnf =>
            have hn' : (temp * cooling_multiplier) * cooling_multiplier ^ m
                ≤ min_temperature := by
              rw [mul_assoc, ← pow_succ']
              exact hn
            exact ih m (temp * cooling_multiplier) _ hn' (by omega) h
    case isFalse ht => exact Except.noConfusion h

/-- Instantiation of the fuel lemma at the values `simulated_annealing`
actually uses: fuel `200`, initial temperature `60`. -/
theorem anneal_loop_no_fuel_error_at_start (choose : List ℕ → ℕ)
    (accept : ℕ → ℚ → ℚ → ℚ → Bool) (energy : List Bool → ℚ)
    (edges : List (ℕ × ℕ)) (locked : List Bool) (limit : Option ℕ)
    (st : AnnealLoopState) :
    anneal_loop choose accept energy edges locked limit 200
      initial_temperature st ≠ .error "out of fuel" :=
  anneal_loop_no_fuel_error choose accept energy edges locked limit 200 125
    initial_temperature st
    (by norm_num [initial_temperature, cooling_multiplier, min_temperature])
    (by omega)

end QRoute
